import Mathlib

/-!
Verification of the qxalign quality-aware aligner (src/align454.c, src/qxalign.c)
against its natural-language specification.

Shallow embedding conventions:
* C `int` scores are modelled as `ℤ` (penalty arithmetic is assumed not to
  overflow a machine int on the executions of interest).
* `size_t` arithmetic that can wrap is modelled explicitly modulo `2 ^ 64`.
* The packed 32-bit CIGAR cell (`cigar_t`) is modelled as a `ℕ` with the
  source's shift/or packing taken modulo `2 ^ 32`.
* Sequences are `List Char`, quality strings `List ℕ`; the rolling DP rows are
  `List ℤ` / `List ℕ`.
* The penalty lookup tables (94-entry arrays indexed after subtracting the
  PHRED offset, see `asw_align`) are modelled as functions `ℤ → ℤ`, which keeps
  every theorem parametric in the table contents.
-/

namespace Qx

/-! ### Packed CIGAR cells (align454.c lines 41-76) -/

def BAM_CIGAR_SHIFT : ℕ := 4
def BAM_CIGAR_MASK : ℕ := (1 <<< BAM_CIGAR_SHIFT) - 1

def BAM_CMATCH : ℕ := 0
def BAM_CINS : ℕ := 1
def BAM_CDEL : ℕ := 2
def BAM_CREF_SKIP : ℕ := 3
def BAM_CSOFT_CLIP : ℕ := 4
def BAM_CHARD_CLIP : ℕ := 5
def BAM_CPAD : ℕ := 6
def BAM_CSEQ_MATCH : ℕ := 7
def BAM_CSEQ_MISMATCH : ℕ := 8

/-- `(z << BAM_CIGAR_SHIFT) | op`, truncated to 32 bits as in C. -/
def pack (z op : ℕ) : ℕ := ((z <<< BAM_CIGAR_SHIFT) ||| op) % 2 ^ 32

/-- `cigar >> BAM_CIGAR_SHIFT`: the run length stored in a cell. -/
def cigarLen (c : ℕ) : ℕ := c >>> BAM_CIGAR_SHIFT

/-- `cigar & BAM_CIGAR_MASK`: the operation code stored in a cell. -/
def cigarOp (c : ℕ) : ℕ := c &&& BAM_CIGAR_MASK

theorem shiftLeft_or_eq_add {z op : ℕ} (hop : op < 16) :
    (z <<< BAM_CIGAR_SHIFT) ||| op = 16 * z + op := by
  have hmul : 16 * z + op = 2 ^ 4 * z + op := by norm_num
  apply Nat.eq_of_testBit_eq
  intro i
  rw [Nat.testBit_or, Nat.testBit_shiftLeft, hmul,
    Nat.testBit_mul_pow_two_add z (by omega : op < 2 ^ 4) i]
  by_cases h : 4 ≤ i
  · have hni : ¬ i < 4 := by omega
    have hopz : op.testBit i = false := Nat.testBit_lt_two_pow (by
      calc op < 16 := hop
        _ = 2 ^ 4 := by norm_num
        _ ≤ 2 ^ i := Nat.pow_le_pow_right (by norm_num) h)
    have hs : BAM_CIGAR_SHIFT = 4 := rfl
    simp [hni, hs, h, hopz]
  · have hi : i < 4 := by omega
    have hs : BAM_CIGAR_SHIFT = 4 := rfl
    have hni : ¬ (4 ≤ i) := by omega
    simp [hi, hs, hni]

theorem pack_eq {z op : ℕ} (hop : op < 16) (hz : 16 * z + op < 2 ^ 32) :
    pack z op = 16 * z + op := by
  unfold pack
  rw [shiftLeft_or_eq_add hop]
  exact Nat.mod_eq_of_lt hz

theorem cigarLen_pack {z op : ℕ} (hop : op < 16) (hz : 16 * z + op < 2 ^ 32) :
    cigarLen (pack z op) = z := by
  unfold cigarLen
  rw [pack_eq hop hz, Nat.shiftRight_eq_div_pow]
  have hs : BAM_CIGAR_SHIFT = 4 := rfl
  rw [hs]
  norm_num
  omega

theorem cigarOp_pack {z op : ℕ} (hop : op < 16) (hz : 16 * z + op < 2 ^ 32) :
    cigarOp (pack z op) = op := by
  unfold cigarOp
  rw [pack_eq hop hz]
  have hm : BAM_CIGAR_MASK = 2 ^ 4 - 1 := rfl
  rw [hm, Nat.and_pow_two_sub_one_eq_mod]
  norm_num
  omega

theorem cigarOp_eq_mod (c : ℕ) : cigarOp c = c % 16 := by
  unfold cigarOp
  have hm : BAM_CIGAR_MASK = 2 ^ 4 - 1 := rfl
  rw [hm, Nat.and_pow_two_sub_one_eq_mod]

theorem cigarLen_eq_div (c : ℕ) : cigarLen c = c / 16 := by
  unfold cigarLen
  rw [Nat.shiftRight_eq_div_pow]
  have hs : BAM_CIGAR_SHIFT = 4 := rfl
  rw [hs]

/-- Any 32-bit cell is recovered from its unpacked length and op. -/
theorem pack_cigarLen_cigarOp {c : ℕ} (hc : c < 2 ^ 32) :
    pack (cigarLen c) (cigarOp c) = c := by
  rw [cigarOp_eq_mod, cigarLen_eq_div]
  have h32 : c < 4294967296 := by simpa using hc
  have hrec : 16 * (c / 16) + c % 16 = c := by omega
  have hz : 16 * (c / 16) + c % 16 < 2 ^ 32 := by
    rw [hrec]
    simpa using hc
  rw [pack_eq (by omega) hz]
  exact hrec

/-! ### IS_MATCH (align454.c line 36) -/

def AMBIGUOUS_BASE : Char := 'N'

/-- `#define IS_MATCH(a,b) ((a) == (b) || (b) == AMBIGUOUS_BASE)`.
In `asw_align` this is invoked as `IS_MATCH(m_subdb[n], cq)`, i.e. `a` is the
reference (database) character and `b` is the query character. -/
def IS_MATCH (a b : Char) : Bool := a == b || b == AMBIGUOUS_BASE

/-! ### Engine parameters

`asw_align` and the init routines read the four penalty lookup tables through
pointers shifted by `phred_offset` (e.g. `al->gopen_penalty - al->phred_offset`
indexed at the quality byte `qq`), so each lookup is `table[qq - phred_offset]`.
The tables are modelled as total functions `ℤ → ℤ`, leaving the table contents
parametric. -/

structure AswParams where
  match_penalty : ℤ → ℤ
  mismatch_penalty : ℤ → ℤ
  gopen_penalty : ℤ → ℤ
  gext_penalty : ℤ → ℤ
  GAP_OPEN_EXTEND : ℤ
  GAP_EXTEND : ℤ
  phred_offset : ℤ

/-- The rolling DP state for one matrix row: substitution scores, insertion
scores, and insertion run lengths (`vecPen_*`, `vecIns_*`, `I_ext_*`). -/
structure AswRow where
  vecPen : List ℤ
  vecIns : List ℤ
  I_ext : List ℕ

/-! ### Row 0 initialization (align454.c lines 750-865) -/

/-- The loop of `asw_align_init` (global): `storedDel_score += GAP_EXTEND;
vec_pen[n1] = storedDel_score` for each of the `m_subdb_len` columns. -/
def initPenGo (GE storedDel : ℤ) : ℕ → List ℤ
  | 0 => []
  | n + 1 => (storedDel + GE) :: initPenGo GE (storedDel + GE) n

/-- Trace row 0, common to global and semi-global init: cell `(0,0)` is the
`(0, =)` sentinel and cell `(0, n1)` is `(n1, DEL)`. -/
def initTraceRow (m_subdb_len : ℕ) : List ℕ :=
  pack 0 BAM_CSEQ_MATCH :: (List.range m_subdb_len).map (fun n => pack (n + 1) BAM_CDEL)

/-- `asw_align_init` (global mode): fills row 0 of the DP.  `vec_pen[0] = 0`,
then each column adds the base `GAP_EXTEND` constant to a running deletion
score that starts at `GAP_OPEN_EXTEND - GAP_EXTEND`.  The insertion row is the
pen row plus `gopen_true_pen`, computed at the quality of query position 0. -/
def asw_align_init (P : AswParams) (subqual : List ℕ) (m_subdb_len : ℕ) :
    AswRow × List ℕ :=
  let qq : ℤ := (subqual.headI : ℤ)
  let gopen_true_pen :=
    P.gopen_penalty (qq - P.phred_offset) - P.gext_penalty (qq - P.phred_offset)
  let storedDel0 := (0 : ℤ) + (P.GAP_OPEN_EXTEND - P.GAP_EXTEND)
  let vecPen := (0 : ℤ) :: initPenGo P.GAP_EXTEND storedDel0 m_subdb_len
  ({ vecPen := vecPen,
     vecIns := vecPen.map (fun v => v + gopen_true_pen),
     I_ext := List.replicate (m_subdb_len + 1) 0 },
   initTraceRow m_subdb_len)

/-- `asw_align_init_semi` (semi-global mode): row 0 scores are all zero. -/
def asw_align_init_semi (P : AswParams) (subqual : List ℕ) (m_subdb_len : ℕ) :
    AswRow × List ℕ :=
  let qq : ℤ := (subqual.headI : ℤ)
  let gopen_true_pen :=
    P.gopen_penalty (qq - P.phred_offset) - P.gext_penalty (qq - P.phred_offset)
  let vecPen : List ℤ := List.replicate (m_subdb_len + 1) 0
  ({ vecPen := vecPen,
     vecIns := vecPen.map (fun v => v + gopen_true_pen),
     I_ext := List.replicate (m_subdb_len + 1) 0 },
   initTraceRow m_subdb_len)

/-! ### The interior DP recurrence (align454.c lines 944-1003) -/

/-- The outputs one interior cell writes: the cell score `vecPen_m1[n1]`, the
insertion score `vecIns_m1[n1]`, the insertion run length `I_ext_m1[n1]`, the
updated `storedDel_score`, the updated deletion run counter `cD`, and the trace
cell `rowTra[n1]`. -/
structure CellOut where
  pen : ℤ
  wI : ℤ
  cI : ℕ
  wD : ℤ
  cD : ℕ
  tra : ℕ

/-- The body of the inner loop of `asw_align` for one interior cell `(i, n1)`.
`penLeft` is `vecPen_m1[n]` (current row, previous column), `pen_n` and
`pen_n1` are `vecPen_m[n]` and `vecPen_m[n1]` from the previous row, `ins_n1`
is `vecIns_m[n1]`, and `iext_n1` is `I_ext_m[n1]`. -/
def aswCell (GOE GE match_pen mismatch_pen gopen_pen gext_pen : ℤ)
    (d cq : Char) (pen_n pen_n1 ins_n1 : ℤ) (iext_n1 : ℕ)
    (penLeft storedDel : ℤ) (cD : ℕ) : CellOut :=
  let is_seq_match := IS_MATCH d cq
  let wD_open := penLeft + GOE
  let wD_extend := storedDel + GE
  let wI_open := pen_n1 + gopen_pen
  let wI_extend := ins_n1 + gext_pen
  let wD := if wD_open < wD_extend then wD_open else wD_extend
  let cD1 := if wD_open < wD_extend then 1 else cD + 1
  let wI := if wI_open < wI_extend then wI_open else wI_extend
  let cI := if wI_open < wI_extend then 1 else iext_n1 + 1
  let wM := if is_seq_match then pen_n + match_pen else pen_n + mismatch_pen
  let mstate := if is_seq_match then BAM_CSEQ_MATCH else BAM_CSEQ_MISMATCH
  if wI < wM then
    if wD < wI then ⟨wD, wI, cI, wD, cD1, pack cD1 BAM_CDEL⟩
    else ⟨wI, wI, cI, wD, cD1, pack cI BAM_CINS⟩
  else if wD < wM then ⟨wD, wI, cI, wD, cD1, pack cD1 BAM_CDEL⟩
  else ⟨wM, wI, cI, wD, cD1, pack 1 mstate⟩

/-- The inner `for` loop of `asw_align` over the reference columns.  The three
previous-row lists are passed as suffixes whose head is the entry at the column
left of the current one, so `pPen.headI = vecPen_m[n]` and
`pPen.tail.headI = vecPen_m[n1]`.  Returns the tails (columns 1..) of the new
`vecPen`, `vecIns`, `I_ext` rows and of the trace row. -/
def alignCells (GOE GE mp mmp gop gep : ℤ) (cq : Char) :
    List Char → List ℤ → List ℤ → List ℕ → ℤ → ℤ → ℕ →
    List ℤ × List ℤ × List ℕ × List ℕ
  | [], _, _, _, _, _, _ => ([], [], [], [])
  | d :: db, pPen, pIns, pIext, penLeft, storedDel, cD =>
      let o := aswCell GOE GE mp mmp gop gep d cq
                 pPen.headI pPen.tail.headI pIns.tail.headI pIext.tail.headI
                 penLeft storedDel cD
      let rest := alignCells GOE GE mp mmp gop gep cq db
                    pPen.tail pIns.tail pIext.tail o.pen o.wD o.cD
      (o.pen :: rest.1, o.wI :: rest.2.1, o.cI :: rest.2.2.1, o.tra :: rest.2.2.2)

/-- One iteration of the outer loop of `asw_align` (one query row): the
leftmost column is a forced insertion extension, then the interior columns. -/
def asw_align_row (P : AswParams) (subdb : List Char) (cq : Char) (qq : ℕ)
    (prev : AswRow) : AswRow × List ℕ :=
  let q : ℤ := (qq : ℤ) - P.phred_offset
  let match_pen := P.match_penalty q
  let mismatch_pen := P.mismatch_penalty q
  let gopen_pen := P.gopen_penalty q
  let gext_pen := P.gext_penalty q
  let wI_extend0 := prev.vecIns.headI + gext_pen
  let cI0 := prev.I_ext.headI + 1
  let pen0 := wI_extend0
  let storedDel0 := pen0 + (P.GAP_OPEN_EXTEND - P.GAP_EXTEND)
  let cells := alignCells P.GAP_OPEN_EXTEND P.GAP_EXTEND
                 match_pen mismatch_pen gopen_pen gext_pen cq subdb
                 prev.vecPen prev.vecIns prev.I_ext pen0 storedDel0 0
  ({ vecPen := pen0 :: cells.1,
     vecIns := wI_extend0 :: cells.2.1,
     I_ext := cI0 :: cells.2.2.1 },
   pack cI0 BAM_CINS :: cells.2.2.2)

/-- The outer loop of `asw_align` over the query rows, producing the trace rows
1.. and the final rolling row (whose `vecPen` is `vecPen_lastRow`). -/
def asw_align_go (P : AswParams) (subdb : List Char) :
    List Char → List ℕ → AswRow → List (List ℕ) × AswRow
  | [], _, prev => ([], prev)
  | cq :: query, qual, prev =>
      let rowOut := asw_align_row P subdb cq qual.headI prev
      let rest := asw_align_go P subdb query qual.tail rowOut.1
      (rowOut.2 :: rest.1, rest.2)

/-- `asw_align` applied after an init step: returns the full trace matrix
(row 0 from init, then one row per query character) and `vecPen_lastRow`. -/
def asw_align (P : AswParams) (subdb subquery : List Char) (subqual : List ℕ)
    (init : AswRow × List ℕ) : List (List ℕ) × List ℤ :=
  let go := asw_align_go P subdb subquery subqual init.1
  (init.2 :: go.1, go.2.vecPen)

/-- Init (global or semi-global) followed by `asw_align`. -/
def alignMatrix (P : AswParams) (subdb subquery : List Char) (subqual : List ℕ)
    (semi : Bool) : List (List ℕ) × List ℤ :=
  asw_align P subdb subquery subqual
    (if semi then asw_align_init_semi P subqual subdb.length
     else asw_align_init P subqual subdb.length)

/-! ### Minimum score search (align454.c lines 1033-1050) -/

/-- The scan loop of `asw_locate_minscore`: strictly smaller scores update the
optimum, so the first index achieving the minimum is kept. -/
def asw_locate_go (vec : List ℤ) : ℕ → ℕ → ℤ → ℕ → ℤ × ℕ
  | 0, _, opt, col => (opt, col)
  | k + 1, n1, opt, col =>
      if vec.getD n1 0 < opt then asw_locate_go vec k (n1 + 1) (vec.getD n1 0) n1
      else asw_locate_go vec k (n1 + 1) opt col

/-- `asw_locate_minscore` over `vecPen_lastRow[0..=m_subdb_len]`. -/
def asw_locate_minscore (vec : List ℤ) (m_subdb_len : ℕ) : ℤ × ℕ :=
  asw_locate_go vec m_subdb_len 1 (vec.getD 0 0) 0

/-! ### Traceback (align454.c lines 1063-1145) -/

/-- `matTra[i][j]`. -/
def readTra (mat : List (List ℕ)) (i j : ℕ) : ℕ := (mat.getD i []).getD j 0

/-- The traceback loop of `asw_trace`.  One fuel unit is spent per trace cell
visited (the C loop has no bound; fuel exhaustion models non-termination).
The list is produced in walk order (bottom-right cell first), mirroring the C
code's writing into `rcigar` from the back; consecutive `=` cells, and
consecutive `X` cells, are merged into a single op exactly as the inner
do-while loops accumulate `num_matches`.  An op code outside the emitted set
is the CorruptTrace error path (`none`). -/
def traceLoop (mat : List (List ℕ)) : ℕ → ℤ → ℤ → Option (List ℕ × ℤ)
  | 0, _, _ => none
  | fuel + 1, m1, n1 =>
    if m1 ≤ 0 then some ([], n1)
    else
      let c := readTra mat m1.toNat n1.toNat
      let z := cigarLen c
      let st := cigarOp c
      if st = BAM_CSEQ_MATCH ∨ st = BAM_CSEQ_MISMATCH then
        match traceLoop mat fuel (m1 - z) (n1 - z) with
        | none => none
        | some (rcig, off) =>
          match rcig with
          | c2 :: rest =>
              if cigarOp c2 = st then some (pack (cigarLen c2 + z) st :: rest, off)
              else some (pack z st :: c2 :: rest, off)
          | [] => some ([pack z st], off)
      else if st = BAM_CDEL then
        match traceLoop mat fuel m1 (n1 - z) with
        | none => none
        | some (rcig, off) => some (c :: rcig, off)
      else if st = BAM_CINS then
        match traceLoop mat fuel (m1 - z) n1 with
        | none => none
        | some (rcig, off) => some (c :: rcig, off)
      else none

/-- `asw_trace`: walk from `(subquery_len, opt_score_col)` to row 0; the
result is the forward CIGAR (reverse of the walk order) and the final column
`n1`, stored as `al->offset`. -/
def asw_trace (mat : List (List ℕ)) (m_subquery_len opt_score_col : ℕ) :
    Option (List ℕ × ℤ) :=
  match traceLoop mat (m_subquery_len + opt_score_col + 1)
      (m_subquery_len : ℤ) (opt_score_col : ℤ) with
  | none => none
  | some (rcig, off) => some (rcig.reverse, off)

/-! ### The binding-layer align entry point (qxalign.c lines 360-385) -/

inductive QxError where
  | EmptyInput
  | AllocError
deriving DecidableEq

/-- The engine state visible to `Qxalign_align`. -/
structure QxEngine where
  P : AswParams
  subdb : List Char
  subquery : List Char
  subqual : List ℕ
  matTra : List (List ℕ)
  vecPen_lastRow : List ℤ
  opt_score : ℤ
  opt_score_col : ℕ

/-- `Qxalign_align`: rejects an empty subview before any init/align/locate
step runs; otherwise fills the matrix and locates the minimum score. -/
def Qxalign_align (e : QxEngine) (semi : Bool) : Except QxError (QxEngine × ℤ) :=
  if e.subdb.length = 0 ∨ e.subquery.length = 0 then Except.error QxError.EmptyInput
  else
    let m := alignMatrix e.P e.subdb e.subquery e.subqual semi
    let loc := asw_locate_minscore m.2 e.subdb.length
    Except.ok ({ e with
                 matTra := m.1
                 vecPen_lastRow := m.2
                 opt_score := loc.1
                 opt_score_col := loc.2 }, loc.1)

/-! ### Clip arithmetic of asw_prepare (align454.c lines 522-535, 658-677) -/

/-- C `size_t` subtraction: wraps modulo `2 ^ 64`. -/
def size_t_sub (a b : ℕ) : ℕ := (((a : ℤ) - (b : ℤ)) % (2 ^ 64 : ℤ)).toNat

/-- The two subview lengths computed at the top of `asw_prepare`:
`m_subdb_len = m_db_len - clip_head - clip_tail` and
`m_subquery_len = m_query_len - clip_head - clip_tail`, in `size_t`
arithmetic (`asw_prepare_query` and `asw_prepare_db` compute the same
expressions for their respective halves). -/
def asw_prepare_lens (m_db_len m_query_len clip_head clip_tail : ℕ) : ℕ × ℕ :=
  (size_t_sub (size_t_sub m_db_len clip_head) clip_tail,
   size_t_sub (size_t_sub m_query_len clip_head) clip_tail)

/-! ### CIGAR measures -/

/-- Ops that consume query characters under the SAM rules: M, I, S, =, X. -/
def consumesQuery (op : ℕ) : Bool :=
  op = BAM_CMATCH || op = BAM_CINS || op = BAM_CSOFT_CLIP ||
  op = BAM_CSEQ_MATCH || op = BAM_CSEQ_MISMATCH

/-- Total query consumption of a CIGAR: sum of run lengths of M/I/S/=/X ops. -/
def querySum (cig : List ℕ) : ℕ :=
  (cig.map (fun c => if consumesQuery (cigarOp c) then cigarLen c else 0)).sum

/-- Sum of all run lengths of a CIGAR. -/
def totalLen (cig : List ℕ) : ℕ := (cig.map cigarLen).sum

/-- All cells of a CIGAR are 32-bit values (as `cigar_t` guarantees in C). -/
def cig_ok (cig : List ℕ) : Prop := ∀ c ∈ cig, c < 2 ^ 32

/-! ### asw_append_softclip (align454.c lines 1158-1234) -/

/-- A C character read at a possibly out-of-range index (the contraction walks
may step outside the subviews; such reads return an unspecified byte). -/
def charAtZ (s : List Char) (i : ℤ) : Char :=
  if 0 ≤ i then s.getD i.toNat (Char.ofNat 0) else Char.ofNat 0

/-- The head contraction loop of `asw_append_softclip`:
`while (clip_head > 0 && *--subquery == *--subdb) ++match_add;` where
`subquery` starts at `query + clip_head` and `subdb` at `subdb + offset`. -/
def head_match_add (query subdb : List Char) : ℕ → ℤ → ℤ → ℕ
  | 0, _, _ => 0
  | clip + 1, qi, di =>
      if charAtZ query (qi - 1) = charAtZ subdb (di - 1)
      then 1 + head_match_add query subdb clip (qi - 1) (di - 1)
      else 0

/-- The tail contraction loop of `asw_append_softclip`:
`while (clip_tail > 0 && *++subquery == *++subdb) ++match_add;` where
`subquery` starts at `subquery + subquery_len - 1` (index
`clip_head + subquery_len - 1` of the full query) and `subdb` at
`subdb + offset + subdb_len - 1`. -/
def tail_match_add (query subdb : List Char) : ℕ → ℤ → ℤ → ℕ
  | 0, _, _ => 0
  | clip + 1, qi, di =>
      if charAtZ query (qi + 1) = charAtZ subdb (di + 1)
      then 1 + tail_match_add query subdb clip (qi + 1) (di + 1)
      else 0

/-- The `clip_head > 0` half of `asw_append_softclip`. -/
def append_softclip_head (query subdb : List Char) (clip_head : ℕ)
    (cig : List ℕ) (offset : ℤ) : List ℕ × ℤ :=
  if clip_head = 0 then (cig, offset)
  else
    match cig with
    | [] => ([pack clip_head BAM_CSOFT_CLIP], offset)
    | c :: rest =>
      let st := cigarOp c
      let z := cigarLen c
      if st = BAM_CSOFT_CLIP then
        (pack (clip_head + z) BAM_CSOFT_CLIP :: rest, offset)
      else if st = BAM_CSEQ_MATCH ∨ st = BAM_CMATCH then
        let match_add := head_match_add query subdb clip_head (clip_head : ℤ) offset
        let clip2 := clip_head - match_add
        let cig2 := if 0 < match_add then pack (z + match_add) st :: rest else c :: rest
        let off2 := if 0 < match_add then offset - match_add else offset
        if 0 < clip2 then (pack clip2 BAM_CSOFT_CLIP :: cig2, off2) else (cig2, off2)
      else
        (pack clip_head BAM_CSOFT_CLIP :: c :: rest, offset)

/-- The `clip_tail > 0` half of `asw_append_softclip` (the offset is not
modified by this half). -/
def append_softclip_tail (query subdb : List Char)
    (clip_head clip_tail subquery_len subdb_len : ℕ)
    (cig : List ℕ) (offset : ℤ) : List ℕ :=
  if clip_tail = 0 then cig
  else
    match cig.getLast? with
    | none => [pack clip_tail BAM_CSOFT_CLIP]
    | some c =>
      let st := cigarOp c
      let z := cigarLen c
      if st = BAM_CSOFT_CLIP then
        cig.dropLast ++ [pack (clip_tail + z) BAM_CSOFT_CLIP]
      else if st = BAM_CSEQ_MATCH ∨ st = BAM_CMATCH then
        let match_add := tail_match_add query subdb clip_tail
            ((clip_head : ℤ) + (subquery_len : ℤ) - 1)
            (offset + (subdb_len : ℤ) - 1)
        let clip2 := clip_tail - match_add
        let cig2 := if 0 < match_add then cig.dropLast ++ [pack (z + match_add) st]
                    else cig
        if 0 < clip2 then cig2 ++ [pack clip2 BAM_CSOFT_CLIP] else cig2
      else
        cig ++ [pack clip_tail BAM_CSOFT_CLIP]

/-- `asw_append_softclip`: head half, then tail half. -/
def asw_append_softclip (query subdb : List Char)
    (clip_head clip_tail subquery_len subdb_len : ℕ)
    (cig : List ℕ) (offset : ℤ) : List ℕ × ℤ :=
  let h := append_softclip_head query subdb clip_head cig offset
  (append_softclip_tail query subdb clip_head clip_tail subquery_len subdb_len
     h.1 h.2, h.2)

/-! ### asw_softclip_trace (align454.c lines 1293-1353) -/

/-- The tail scan of `asw_softclip_trace` over the reversed CIGAR: stop at the
first `=`; skip `D` and `H` without accumulating; accumulate the lengths of
all other ops.  Returns the accumulated length and the remaining (reversed)
CIGAR starting at the `=` found. -/
def softclip_scan3 : List ℕ → ℕ → ℕ × List ℕ
  | [], acc => (acc, [])
  | c :: rest, acc =>
      if cigarOp c = BAM_CSEQ_MATCH then (acc, c :: rest)
      else if cigarOp c ≠ BAM_CDEL ∧ cigarOp c ≠ BAM_CHARD_CLIP then
        softclip_scan3 rest (acc + cigarLen c)
      else softclip_scan3 rest acc

/-- The head scan of `asw_softclip_trace`: stop at the first `=`; skip `H`
entirely; accumulate every non-`D` length into the soft clip and add every
non-`I` length to the offset. -/
def softclip_scan5 : List ℕ → ℕ → ℤ → ℕ × ℤ × List ℕ
  | [], acc, off => (acc, off, [])
  | c :: rest, acc, off =>
      if cigarOp c = BAM_CSEQ_MATCH then (acc, off, c :: rest)
      else if cigarOp c = BAM_CHARD_CLIP then softclip_scan5 rest acc off
      else
        softclip_scan5 rest
          (if cigarOp c ≠ BAM_CDEL then acc + cigarLen c else acc)
          (if cigarOp c ≠ BAM_CINS then off + (cigarLen c : ℤ) else off)

/-- `asw_softclip_trace`: tail scan (writing a tail `S` when the accumulation
is positive), then head scan (writing a head `S` and updating the offset). -/
def asw_softclip_trace (cig : List ℕ) (offset : ℤ) : List ℕ × ℤ :=
  let t := softclip_scan3 cig.reverse 0
  let rev2 := if 0 < t.1 then pack t.1 BAM_CSOFT_CLIP :: t.2 else t.2
  let h := softclip_scan5 rev2.reverse 0 offset
  let fwd2 := if 0 < h.1 then pack h.1 BAM_CSOFT_CLIP :: h.2.2 else h.2.2
  (fwd2, h.2.1)

/-- Length of the leading soft clip of a CIGAR (0 when it does not start with
`S`). -/
def head_soft_len (cig : List ℕ) : ℕ :=
  match cig with
  | [] => 0
  | c :: _ => if cigarOp c = BAM_CSOFT_CLIP then cigarLen c else 0

/-- The stopping predicate of both softclip scans, as a Boolean: true while
the cell is not a sequence match. -/
def notSeqEq (c : ℕ) : Bool := !(cigarOp c == BAM_CSEQ_MATCH)

/-- Shape of a CIGAR boundary after `asw_softclip_trace`: the list is empty,
or starts with a `=` cell, or starts with a soft-clip cell (of positive
length below 2^28) followed by nothing or by a `=` cell. -/
def sct_shape (l : List ℕ) : Prop :=
  l = [] ∨
  (∃ e t, l = e :: t ∧ cigarOp e = BAM_CSEQ_MATCH) ∨
  (∃ a t, l = pack a BAM_CSOFT_CLIP :: t ∧ 0 < a ∧ a < 2 ^ 28 ∧
    (t = [] ∨ ∃ e u, t = e :: u ∧ cigarOp e = BAM_CSEQ_MATCH))

/-! ### asw_compact_trace (align454.c lines 1365-1402) -/

/-- The loop of `asw_compact_trace`, processing the CIGAR from the tail
(hence over the reversed list): `=`/`X` lengths are accumulated into
`num_matches` and flushed as a single `M` op at the end of each run (the
`rbucket == rc` boundary check of the source fires inside the match branch,
so a match run ending at `cigar_begin` is flushed even when empty); all
other ops are copied verbatim. -/
def compactGo : List ℕ → ℕ → List ℕ
  | [], _ => []
  | c :: rest, num_matches =>
      if cigarOp c = BAM_CSEQ_MATCH ∨ cigarOp c = BAM_CSEQ_MISMATCH then
        match rest with
        | [] => [pack (num_matches + cigarLen c) BAM_CMATCH]
        | _ :: _ => compactGo rest (num_matches + cigarLen c)
      else if 0 < num_matches then
        pack num_matches BAM_CMATCH :: c :: compactGo rest 0
      else
        c :: compactGo rest 0

/-- `asw_compact_trace` on the forward CIGAR. -/
def asw_compact_trace (cig : List ℕ) : List ℕ := (compactGo cig.reverse 0).reverse

/-- Whether a cell is an `=` or `X` op. -/
def isSeqMatchOp (c : ℕ) : Bool :=
  cigarOp c = BAM_CSEQ_MATCH || cigarOp c = BAM_CSEQ_MISMATCH

/-- Modelled from the spec (for the refinement half of the compact_trace
claim): "Fuse adjacent `=` and `X` runs into `M` runs ... Non-match ops are
copied verbatim" — each maximal group of adjacent `=`/`X` runs becomes one
`M` run carrying the summed length; every other op is copied unchanged. -/
def compactSpec : List ℕ → List ℕ
  | [] => []
  | c :: rest =>
      if isSeqMatchOp c then
        pack (cigarLen c + ((rest.takeWhile isSeqMatchOp).map cigarLen).sum)
            BAM_CMATCH
          :: compactSpec (rest.dropWhile isSeqMatchOp)
      else c :: compactSpec rest
  termination_by cig => cig.length
  decreasing_by
    · simp only [List.length_cons]
      exact Nat.lt_succ_of_le ((List.dropWhile_sublist isSeqMatchOp).length_le)
    · simp

/-! ### Trace matrix well-formedness -/

/-- What `asw_align` guarantees about an interior trace cell at row `i ≥ 1`,
column `j ≥ 1`: a diagonal op of length 1, an insertion of length between 1
and `i`, or a deletion of length between 1 and `j`. -/
def trace_cell_ok (i j c : ℕ) : Prop :=
  c = pack 1 BAM_CSEQ_MATCH ∨ c = pack 1 BAM_CSEQ_MISMATCH ∨
  (∃ z, 1 ≤ z ∧ z ≤ i ∧ c = pack z BAM_CINS) ∨
  (∃ z, 1 ≤ z ∧ z ≤ j ∧ c = pack z BAM_CDEL)

/-- Well-formedness of the whole trace matrix over a `Q`-character query and
an `L`-character reference: the sentinel, the row-0 deletions, the column-0
insertions, and the interior cell bounds. -/
def trace_matrix_ok (mat : List (List ℕ)) (Q L : ℕ) : Prop :=
  readTra mat 0 0 = pack 0 BAM_CSEQ_MATCH ∧
  (∀ j, 1 ≤ j → j ≤ L → readTra mat 0 j = pack j BAM_CDEL) ∧
  (∀ i, 1 ≤ i → i ≤ Q → readTra mat i 0 = pack i BAM_CINS) ∧
  (∀ i j, 1 ≤ i → i ≤ Q → 1 ≤ j → j ≤ L → trace_cell_ok i j (readTra mat i j))

/-- Concrete demo parameters (penalty table values for quality 40 under the
default penalties, see `Qxalign_new`), used by witnesses. -/
def Pdemo : AswParams :=
  { match_penalty := fun _ => 0
    mismatch_penalty := fun _ => 40
    gopen_penalty := fun _ => 60
    gext_penalty := fun _ => 30
    GAP_OPEN_EXTEND := 50
    GAP_EXTEND := 20
    phred_offset := 33 }

/-- Parameters exhibiting that row 0 of the global init uses the base
`GAP_EXTEND` constant rather than the quality-weighted gap-extend table:
the gap-extend table is constantly 10 while `GAP_EXTEND = 0`. -/
def Pgext10 : AswParams :=
  { match_penalty := fun _ => 0
    mismatch_penalty := fun _ => 40
    gopen_penalty := fun _ => 60
    gext_penalty := fun _ => 10
    GAP_OPEN_EXTEND := 50
    GAP_EXTEND := 0
    phred_offset := 33 }

/-! ## Theorems -/

/-! ### Claim C2: the match predicate -/

/-- Claim C2, counterexample: at an interior cell with reference character
`N` and query character `A`, the spec's predicate
(`ref = query ∨ ref = 'N'`) holds, yet the code's `IS_MATCH(ref, query)`
is false: the `N` wildcard is not on the reference side. -/
theorem C2_counterexample :
    IS_MATCH 'N' 'A' = false ∧ ('N' = 'A' ∨ 'N' = AMBIGUOUS_BASE) := by
  constructor
  · decide
  · right; rfl

/-- Claim C2 (amended): in `asw_align` the match predicate for the reference
character `a = m_subdb[n]` and query character `b = cq` holds exactly when
`a = b` or the query character is `'N'`; the wildcard is one-sided on the
query: an `N` in the query matches any reference base, while an `N` in the
reference is treated as a literal character. -/
theorem C2_is_match (a b : Char) :
    IS_MATCH a b = true ↔ (a = b ∨ b = AMBIGUOUS_BASE) := by
  simp [IS_MATCH]

/-! ### Claim C1: the interior DP recurrence -/

/-- Claim C1: at every interior cell, the deletion candidate is open with run
length 1 when `wD_open < wD_extend` and otherwise extend with run length
`cD + 1`; analogously for insertion with the persistent tracker
`I_ext_m[n1]`; the final cell score is `min wM (min wI wD)`; and the trace
cell packs the `(run_length, op)` of the candidate chosen with tie priority
M > I > D (I only if `wI < wM`, within that D only if `wD < wI`, otherwise
D only if `wD < wM`, else M — a diagonal op has run length 1). -/
theorem C1_dp_cell (GOE GE mp mmp gop gep : ℤ) (d cq : Char)
    (pen_n pen_n1 ins_n1 penLeft storedDel : ℤ) (iext_n1 cD : ℕ) :
    (aswCell GOE GE mp mmp gop gep d cq pen_n pen_n1 ins_n1 iext_n1
        penLeft storedDel cD).wD =
      (if penLeft + GOE < storedDel + GE then penLeft + GOE
       else storedDel + GE) ∧
    (aswCell GOE GE mp mmp gop gep d cq pen_n pen_n1 ins_n1 iext_n1
        penLeft storedDel cD).cD =
      (if penLeft + GOE < storedDel + GE then 1 else cD + 1) ∧
    (aswCell GOE GE mp mmp gop gep d cq pen_n pen_n1 ins_n1 iext_n1
        penLeft storedDel cD).wI =
      (if pen_n1 + gop < (ins_n1 : ℤ) + gep then pen_n1 + gop
       else ins_n1 + gep) ∧
    (aswCell GOE GE mp mmp gop gep d cq pen_n pen_n1 ins_n1 iext_n1
        penLeft storedDel cD).cI =
      (if pen_n1 + gop < (ins_n1 : ℤ) + gep then 1 else iext_n1 + 1) ∧
    (aswCell GOE GE mp mmp gop gep d cq pen_n pen_n1 ins_n1 iext_n1
        penLeft storedDel cD).pen =
      min (if IS_MATCH d cq then pen_n + mp else pen_n + mmp)
        (min (if pen_n1 + gop < (ins_n1 : ℤ) + gep then pen_n1 + gop
              else ins_n1 + gep)
          (if penLeft + GOE < storedDel + GE then penLeft + GOE
           else storedDel + GE)) ∧
    (aswCell GOE GE mp mmp gop gep d cq pen_n pen_n1 ins_n1 iext_n1
        penLeft storedDel cD).tra =
      (if (if pen_n1 + gop < (ins_n1 : ℤ) + gep then pen_n1 + gop
           else ins_n1 + gep) <
            (if IS_MATCH d cq then pen_n + mp else pen_n + mmp) then
         if (if penLeft + GOE < storedDel + GE then penLeft + GOE
             else storedDel + GE) <
              (if pen_n1 + gop < (ins_n1 : ℤ) + gep then pen_n1 + gop
               else ins_n1 + gep) then
           pack (if penLeft + GOE < storedDel + GE then 1 else cD + 1)
             BAM_CDEL
         else
           pack (if pen_n1 + gop < (ins_n1 : ℤ) + gep then 1 else iext_n1 + 1)
             BAM_CINS
       else if (if penLeft + GOE < storedDel + GE then penLeft + GOE
                else storedDel + GE) <
            (if IS_MATCH d cq then pen_n + mp else pen_n + mmp) then
         pack (if penLeft + GOE < storedDel + GE then 1 else cD + 1) BAM_CDEL
       else
         pack 1 (if IS_MATCH d cq then BAM_CSEQ_MATCH
                 else BAM_CSEQ_MISMATCH)) := by
  unfold aswCell
  dsimp only
  split_ifs <;> refine ⟨rfl, rfl, rfl, rfl, by dsimp only; omega, rfl⟩


/-! ### Claim C3: row 0 in global mode -/

theorem initPenGo_getD (GE s : ℤ) :
    ∀ n k, k < n → (initPenGo GE s n).getD k 0 = s + ((k : ℤ) + 1) * GE := by
  intro n
  induction n generalizing s with
  | zero => intro k hk; omega
  | succ n ih =>
    intro k hk
    cases k with
    | zero => simp [initPenGo]
    | succ k =>
      have := ih (s + GE) k (by omega)
      simp only [initPenGo, List.getD_cons_succ]
      rw [this]
      push_cast
      ring

theorem initPenGo_length (GE s : ℤ) : ∀ n, (initPenGo GE s n).length = n := by
  intro n
  induction n generalizing s with
  | zero => rfl
  | succ n ih => simp [initPenGo, ih]

theorem initTraceRow_getD (L j : ℕ) (h1 : 1 ≤ j) (hL : j ≤ L) :
    (initTraceRow L).getD j 0 = pack j BAM_CDEL := by
  obtain ⟨k, rfl⟩ : ∃ k, j = k + 1 := ⟨j - 1, by omega⟩
  simp only [initTraceRow, List.getD_cons_succ]
  rw [List.getD_eq_getElem?_getD, List.getElem?_map,
    List.getElem?_range (by omega : k < L)]
  rfl

/-- Claim C3, counterexample: with `GAP_OPEN_EXTEND = 50`, `GAP_EXTEND = 0`
and a gap-extend table that is constantly 10, after the global init the score
at column 1 is 50 (`vec_pen[0] + GAP_OPEN_EXTEND`), not
`vec_pen[0]` plus the quality-weighted gap-extend penalty of query
position 0 (which is 10). -/
theorem C3_counterexample :
    (asw_align_init Pgext10 [73] 1).1.vecPen.getD 1 0 ≠
      (asw_align_init Pgext10 [73] 1).1.vecPen.getD 0 0 +
        Pgext10.gext_penalty ((73 : ℤ) - Pgext10.phred_offset) := by
  decide

/-- Claim C3 (amended): after `asw_align_init` in global mode,
`vec_pen[0] = 0` and for `1 ≤ j ≤ subdb_len` the score is
`GAP_OPEN_EXTEND + (j - 1) * GAP_EXTEND` — column 1 accumulates the base
`GAP_OPEN_EXTEND` constant and each later column one base `GAP_EXTEND`
constant, with no quality weighting (the quality of query position 0 enters
only the insertion row); the trace cell at `(0, j)` is the packed
`(j, DEL)`. -/
theorem C3_init_global (P : AswParams) (subqual : List ℕ) (L j : ℕ)
    (h1 : 1 ≤ j) (hL : j ≤ L) :
    (asw_align_init P subqual L).1.vecPen.getD 0 0 = 0 ∧
    (asw_align_init P subqual L).1.vecPen.getD j 0
      = P.GAP_OPEN_EXTEND + ((j : ℤ) - 1) * P.GAP_EXTEND ∧
    (asw_align_init P subqual L).2.getD j 0 = pack j BAM_CDEL := by
  refine ⟨rfl, ?_, initTraceRow_getD L j h1 hL⟩
  obtain ⟨k, rfl⟩ : ∃ k, j = k + 1 := ⟨j - 1, by omega⟩
  show ((0 : ℤ) :: initPenGo P.GAP_EXTEND (0 + (P.GAP_OPEN_EXTEND - P.GAP_EXTEND)) L).getD
      (k + 1) 0 = _
  rw [List.getD_cons_succ, initPenGo_getD _ _ L k (by omega)]
  push_cast
  ring

/-- Witness for C3 at `P = Pdemo`, quality row `[73]`, `L = j = 1`. -/
theorem C3_init_global_witness :
    (1 ≤ 1 ∧ 1 ≤ 1) ∧
    ((asw_align_init Pdemo [73] 1).1.vecPen.getD 0 0 = 0 ∧
     (asw_align_init Pdemo [73] 1).1.vecPen.getD 1 0
       = Pdemo.GAP_OPEN_EXTEND + ((1 : ℤ) - 1) * Pdemo.GAP_EXTEND ∧
     (asw_align_init Pdemo [73] 1).2.getD 1 0 = pack 1 BAM_CDEL) :=
  ⟨⟨le_refl 1, le_refl 1⟩, C3_init_global Pdemo [73] 1 1 (le_refl 1) (le_refl 1)⟩

/-! ### Claim C8: empty input rejection -/

/-- Claim C8: calling `align` when either subview has length zero returns the
EmptyInput error; the check happens before any init/align/locate step, so no
DP row is written and no previous result is modified (the function returns no
new engine state). -/
theorem C8_empty_input (e : QxEngine) (semi : Bool)
    (h : e.subdb.length = 0 ∨ e.subquery.length = 0) :
    Qxalign_align e semi = Except.error QxError.EmptyInput := by
  unfold Qxalign_align
  rw [if_pos h]

/-- Witness for C8: an engine with empty subviews. -/
theorem C8_empty_input_witness :
    (([] : List Char).length = 0 ∨ ([] : List Char).length = 0) ∧
    Qxalign_align ⟨Pdemo, [], [], [], [], [], 0, 0⟩ false
      = Except.error QxError.EmptyInput :=
  ⟨Or.inl rfl,
   C8_empty_input ⟨Pdemo, [], [], [], [], [], 0, 0⟩ false (Or.inl rfl)⟩

/-! ### Claim C9: clip arithmetic -/

/-- Claim C9, counterexample: `asw_prepare` accepts every argument value, and
with `m_query_len = 0`, `clip_head = 1`, `clip_tail = 0` the `size_t`
subtraction `m_query_len - clip_head - clip_tail` wraps: the computed
`subquery_len` is `2^64 - 1`, which is not `≤ query_len = 0`. -/
theorem C9_counterexample :
    ¬ (asw_prepare_lens 4 0 1 0).2 ≤ 0 := by
  decide

theorem size_t_sub_eq {a b : ℕ} (hb : b ≤ a) (ha : a < 2 ^ 64) :
    size_t_sub a b = a - b := by
  unfold size_t_sub
  rw [Int.emod_eq_of_lt (by omega) (by push_cast; omega)]
  omega

/-- Claim C9 (amended): provided the clips do not exceed the underlying
lengths (which every in-repo caller guarantees by passing clips of 0), the
clip arithmetic of `asw_prepare` does not wrap: the computed subview lengths
are the exact differences, they are bounded by the underlying lengths, and
the subview offset `clip_head` is bounded by the underlying lengths. -/
theorem C9_prepare_no_wrap (m_db_len m_query_len clip_head clip_tail : ℕ)
    (hd : clip_head + clip_tail ≤ m_db_len)
    (hq : clip_head + clip_tail ≤ m_query_len)
    (hd64 : m_db_len < 2 ^ 64) (hq64 : m_query_len < 2 ^ 64) :
    (asw_prepare_lens m_db_len m_query_len clip_head clip_tail).1
        = m_db_len - clip_head - clip_tail ∧
    (asw_prepare_lens m_db_len m_query_len clip_head clip_tail).2
        = m_query_len - clip_head - clip_tail ∧
    (asw_prepare_lens m_db_len m_query_len clip_head clip_tail).1 ≤ m_db_len ∧
    (asw_prepare_lens m_db_len m_query_len clip_head clip_tail).2 ≤ m_query_len ∧
    clip_head ≤ m_db_len ∧ clip_head ≤ m_query_len := by
  unfold asw_prepare_lens
  rw [size_t_sub_eq (by omega) hd64, size_t_sub_eq (by omega) (by omega),
    size_t_sub_eq (by omega) hq64, size_t_sub_eq (by omega) (by omega)]
  refine ⟨rfl, rfl, by omega, by omega, by omega, by omega⟩

/-- Witness for C9 at `db_len = 10`, `query_len = 8`, clips 2 and 1. -/
theorem C9_prepare_no_wrap_witness :
    (2 + 1 ≤ 10 ∧ 2 + 1 ≤ 8 ∧ 10 < 2 ^ 64 ∧ 8 < 2 ^ 64) ∧
    (asw_prepare_lens 10 8 2 1).1 = 10 - 2 - 1 ∧
    (asw_prepare_lens 10 8 2 1).2 = 8 - 2 - 1 := by
  have h := C9_prepare_no_wrap 10 8 2 1 (by norm_num) (by norm_num)
    (by norm_num) (by norm_num)
  exact ⟨⟨by norm_num, by norm_num, by norm_num, by norm_num⟩, h.1, h.2.1⟩

/-! ### Trace-matrix invariants established by init + align -/

theorem headI_le_of_all {l : List ℕ} {b : ℕ} (h : ∀ x ∈ l, x ≤ b) :
    l.headI ≤ b := by
  cases l with
  | nil => simp [List.headI]
  | cons a t => exact h a (List.mem_cons_self a t)

set_option maxHeartbeats 800000 in
theorem aswCell_trace_ok (GOE GE mp mmp gop gep : ℤ) (d cq : Char)
    (pen_n pen_n1 ins_n1 penLeft storedDel : ℤ) (iext_n1 cD : ℕ)
    (i j : ℕ) (hi : 1 ≤ i) (hj : 1 ≤ j)
    (hcD : cD + 1 ≤ j) (hie : iext_n1 + 1 ≤ i) :
    let o := aswCell GOE GE mp mmp gop gep d cq pen_n pen_n1 ins_n1 iext_n1
               penLeft storedDel cD
    trace_cell_ok i j o.tra ∧ o.cD + 1 ≤ j + 1 ∧ 1 ≤ o.cI ∧ o.cI ≤ i := by
  dsimp only
  unfold aswCell trace_cell_ok
  dsimp only
  split_ifs <;>
    refine ⟨?_, by dsimp only; omega, by dsimp only; omega,
      by dsimp only; omega⟩ <;> dsimp only <;>
    first
      | exact Or.inl rfl
      | exact Or.inr (Or.inl rfl)
      | exact Or.inr (Or.inr (Or.inl ⟨1, Nat.le_refl 1, hi, rfl⟩))
      | exact Or.inr (Or.inr (Or.inl
          ⟨iext_n1 + 1, Nat.succ_le_succ (Nat.zero_le iext_n1), hie, rfl⟩))
      | exact Or.inr (Or.inr (Or.inr ⟨1, Nat.le_refl 1, hj, rfl⟩))
      | exact Or.inr (Or.inr (Or.inr
          ⟨cD + 1, Nat.succ_le_succ (Nat.zero_le cD), hcD, rfl⟩))

/-- Invariant of the inner loop: starting at column offset `j0` with deletion
counter `cD ≤ j0` and a previous-row insertion-length list bounded by `ip`,
every produced trace cell is well formed for row `ip + 1`, and the produced
insertion lengths are in `[1, ip + 1]`. -/
theorem alignCells_inv (GOE GE mp mmp gop gep : ℤ) (cq : Char) (ip : ℕ) :
    ∀ (db : List Char) (pPen pIns : List ℤ) (pIext : List ℕ)
      (penLeft storedDel : ℤ) (cD j0 : ℕ),
      cD ≤ j0 →
      (∀ x ∈ pIext, x ≤ ip) →
      (alignCells GOE GE mp mmp gop gep cq db pPen pIns pIext
          penLeft storedDel cD).2.2.1.length = db.length ∧
      (alignCells GOE GE mp mmp gop gep cq db pPen pIns pIext
          penLeft storedDel cD).2.2.2.length = db.length ∧
      (∀ x ∈ (alignCells GOE GE mp mmp gop gep cq db pPen pIns pIext
          penLeft storedDel cD).2.2.1, 1 ≤ x ∧ x ≤ ip + 1) ∧
      (∀ k, k < db.length →
        trace_cell_ok (ip + 1) (j0 + k + 1)
          ((alignCells GOE GE mp mmp gop gep cq db pPen pIns pIext
              penLeft storedDel cD).2.2.2.getD k 0)) := by
  intro db
  induction db with
  | nil =>
    intro pPen pIns pIext penLeft storedDel cD j0 hcD hie
    exact ⟨rfl, rfl, by simp [alignCells], by simp⟩
  | cons d db ih =>
    intro pPen pIns pIext penLeft storedDel cD j0 hcD hie
    have hiehead : pIext.tail.headI ≤ ip :=
      headI_le_of_all (fun x hx => hie x (List.mem_of_mem_tail hx))
    have hcell := aswCell_trace_ok GOE GE mp mmp gop gep d cq
      pPen.headI pPen.tail.headI pIns.tail.headI penLeft storedDel
      pIext.tail.headI cD (ip + 1) (j0 + 1) (by omega) (by omega)
      (by omega) (by omega)
    set o := aswCell GOE GE mp mmp gop gep d cq
      pPen.headI pPen.tail.headI pIns.tail.headI pIext.tail.headI
      penLeft storedDel cD with ho
    obtain ⟨htra, hocD, hocI1, hocI2⟩ := hcell
    have hrest := ih pPen.tail pIns.tail pIext.tail o.pen o.wD o.cD (j0 + 1)
      (by omega) (fun x hx => hie x (List.mem_of_mem_tail hx))
    obtain ⟨hl1, hl2, hmem, hcells⟩ := hrest
    refine ⟨?_, ?_, ?_, ?_⟩
    · simpa [alignCells, ← ho] using hl1
    · simpa [alignCells, ← ho] using hl2
    · intro x hx
      simp only [alignCells, ← ho, List.mem_cons] at hx
      rcases hx with rfl | hx
      · exact ⟨hocI1, hocI2⟩
      · exact hmem x hx
    · intro k hk
      cases k with
      | zero =>
        simpa [alignCells, ← ho] using htra
      | succ k =>
        have := hcells k (by simpa using hk)
        simp only [alignCells, ← ho, List.getD_cons_succ]
        convert this using 2
        omega

/-- Invariant of one outer-loop iteration (`asw_align_row`): for a previous
row whose insertion-length vector starts with `ip` and is bounded by `ip`,
the new row has the analogous facts for `ip + 1`, and the new trace row is
well formed for row `ip + 1`. -/
theorem asw_align_row_inv (P : AswParams) (subdb : List Char) (cq : Char)
    (qq ip : ℕ) (prev : AswRow)
    (hhead : prev.I_ext.headI = ip)
    (hall : ∀ x ∈ prev.I_ext, x ≤ ip) :
    ((asw_align_row P subdb cq qq prev).1.I_ext.headI = ip + 1) ∧
    (∀ x ∈ (asw_align_row P subdb cq qq prev).1.I_ext, x ≤ ip + 1) ∧
    (asw_align_row P subdb cq qq prev).2.length = subdb.length + 1 ∧
    (asw_align_row P subdb cq qq prev).2.getD 0 0 = pack (ip + 1) BAM_CINS ∧
    (∀ j, 1 ≤ j → j ≤ subdb.length →
      trace_cell_ok (ip + 1) j ((asw_align_row P subdb cq qq prev).2.getD j 0)) := by
  have hinv := alignCells_inv P.GAP_OPEN_EXTEND P.GAP_EXTEND
    (P.match_penalty ((qq : ℤ) - P.phred_offset))
    (P.mismatch_penalty ((qq : ℤ) - P.phred_offset))
    (P.gopen_penalty ((qq : ℤ) - P.phred_offset))
    (P.gext_penalty ((qq : ℤ) - P.phred_offset)) cq ip subdb
    prev.vecPen prev.vecIns prev.I_ext
    (prev.vecIns.headI + P.gext_penalty ((qq : ℤ) - P.phred_offset))
    (prev.vecIns.headI + P.gext_penalty ((qq : ℤ) - P.phred_offset)
      + (P.GAP_OPEN_EXTEND - P.GAP_EXTEND))
    0 0 (le_refl 0) hall
  obtain ⟨hl1, hl2, hmem, hcells⟩ := hinv
  refine ⟨?_, ?_, ?_, ?_, ?_⟩
  · simp [asw_align_row, hhead]
  · intro x hx
    simp only [asw_align_row, List.mem_cons] at hx
    rcases hx with rfl | hx
    · omega
    · exact (hmem x hx).2
  · simp only [asw_align_row, List.length_cons]
    rw [hl2]
  · simp [asw_align_row, hhead]
  · intro j h1 hj
    obtain ⟨k, rfl⟩ : ∃ k, j = k + 1 := ⟨j - 1, by omega⟩
    have := hcells k (by omega)
    simpa [asw_align_row, List.getD_cons_succ] using this

/-- Invariant of the outer loop (`asw_align_go`): row `k` of the produced
trace rows (0-based within the produced list, absolute row `ip + k + 1`) is
well formed. -/
theorem asw_align_go_inv (P : AswParams) (subdb : List Char) :
    ∀ (query : List Char) (qual : List ℕ) (prev : AswRow) (ip : ℕ),
      prev.I_ext.headI = ip →
      (∀ x ∈ prev.I_ext, x ≤ ip) →
      (asw_align_go P subdb query qual prev).1.length = query.length ∧
      (∀ k, k < query.length →
        ((asw_align_go P subdb query qual prev).1.getD k []).length
            = subdb.length + 1 ∧
        ((asw_align_go P subdb query qual prev).1.getD k []).getD 0 0
            = pack (ip + k + 1) BAM_CINS ∧
        (∀ j, 1 ≤ j → j ≤ subdb.length →
          trace_cell_ok (ip + k + 1) j
            (((asw_align_go P subdb query qual prev).1.getD k []).getD j 0))) := by
  intro query
  induction query with
  | nil =>
    intro qual prev ip hhead hall
    exact ⟨rfl, by simp⟩
  | cons cq query ih =>
    intro qual prev ip hhead hall
    have hrow := asw_align_row_inv P subdb cq qual.headI ip prev hhead hall
    obtain ⟨hh, ha, hlen, h0, hcells⟩ := hrow
    have hrest := ih qual.tail (asw_align_row P subdb cq qual.headI prev).1
      (ip + 1) hh ha
    obtain ⟨hglen, hgcells⟩ := hrest
    refine ⟨by simp [asw_align_go, hglen], ?_⟩
    intro k hk
    cases k with
    | zero =>
      refine ⟨?_, ?_, ?_⟩
      · simpa [asw_align_go] using hlen
      · simpa [asw_align_go] using h0
      · intro j h1 hj
        have := hcells j h1 hj
        simpa [asw_align_go] using this
    | succ k =>
      have := hgcells k (by simpa using hk)
      obtain ⟨q1, q2, q3⟩ := this
      refine ⟨?_, ?_, ?_⟩
      · simpa [asw_align_go] using q1
      · rw [show ip + (k + 1) + 1 = ip + 1 + k + 1 by omega]
        simpa [asw_align_go] using q2
      · intro j h1 hj
        have := q3 j h1 hj
        rw [show ip + (k + 1) + 1 = ip + 1 + k + 1 by omega]
        simpa [asw_align_go] using this

/-- The matrix produced by init (either mode) followed by `asw_align` is well
formed. -/
theorem alignMatrix_trace_ok (P : AswParams) (subdb subquery : List Char)
    (subqual : List ℕ) (semi : Bool) :
    trace_matrix_ok (alignMatrix P subdb subquery subqual semi).1
      subquery.length subdb.length := by
  have hinit : (if semi then asw_align_init_semi P subqual subdb.length
      else asw_align_init P subqual subdb.length).2 = initTraceRow subdb.length := by
    cases semi <;> rfl
  have hiext : (if semi then asw_align_init_semi P subqual subdb.length
      else asw_align_init P subqual subdb.length).1.I_ext
      = List.replicate (subdb.length + 1) 0 := by
    cases semi <;> rfl
  have hgo := asw_align_go_inv P subdb subquery subqual
    (if semi then asw_align_init_semi P subqual subdb.length
     else asw_align_init P subqual subdb.length).1 0
    (by rw [hiext, List.replicate_succ]; rfl)
    (by rw [hiext]; intro x hx; simpa using (List.eq_of_mem_replicate hx).le)
  obtain ⟨hglen, hgcells⟩ := hgo
  have hmat : (alignMatrix P subdb subquery subqual semi).1
      = initTraceRow subdb.length ::
        (asw_align_go P subdb subquery subqual
          (if semi then asw_align_init_semi P subqual subdb.length
           else asw_align_init P subqual subdb.length).1).1 := by
    simp [alignMatrix, asw_align, hinit]
  refine ⟨?_, ?_, ?_, ?_⟩
  · rw [hmat]; rfl
  · intro j h1 hj
    rw [hmat]
    show (initTraceRow subdb.length).getD j 0 = pack j BAM_CDEL
    exact initTraceRow_getD subdb.length j h1 hj
  · intro i h1 hi
    obtain ⟨k, rfl⟩ : ∃ k, i = k + 1 := ⟨i - 1, by omega⟩
    have := (hgcells k (by omega)).2.1
    rw [hmat]
    show ((asw_align_go P subdb subquery subqual _).1.getD k []).getD 0 0 = _
    rw [this]
    congr 1
    omega
  · intro i j h1 hi hj1 hjL
    obtain ⟨k, rfl⟩ : ∃ k, i = k + 1 := ⟨i - 1, by omega⟩
    have := (hgcells k (by omega)).2.2 j hj1 hjL
    rw [hmat]
    show trace_cell_ok (k + 1) j
      (((asw_align_go P subdb subquery subqual _).1.getD k []).getD j 0)
    rw [show k + 1 = 0 + k + 1 by omega]
    exact this

/-! ### Traceback termination and CIGAR query length -/

theorem querySum_cons (c : ℕ) (l : List ℕ) :
    querySum (c :: l) =
      (if consumesQuery (cigarOp c) then cigarLen c else 0) + querySum l := by
  simp [querySum]

theorem totalLen_cons (c : ℕ) (l : List ℕ) :
    totalLen (c :: l) = cigarLen c + totalLen l := by
  simp [totalLen]

/-- The central induction for `asw_trace`: on a well-formed trace matrix the
traceback loop terminates within `m1 + n1 + 1` cell visits, never drives the
column below 0, and the emitted (reverse-order) CIGAR consumes exactly `m1`
query characters; every emitted cell is a well-formed pack of a positive run
length with an op among I, D, `=`, `X`. -/
theorem traceLoop_spec (mat : List (List ℕ)) (Q L : ℕ)
    (hwf : trace_matrix_ok mat Q L) (hQL : Q + L < 2 ^ 28) :
    ∀ (fuel : ℕ) (m1 n1 : ℤ), 0 ≤ m1 → m1 ≤ (Q : ℤ) → 0 ≤ n1 → n1 ≤ (L : ℤ) →
      (m1 + n1).toNat < fuel →
      ∃ rcig off, traceLoop mat fuel m1 n1 = some (rcig, off) ∧
        0 ≤ off ∧ off ≤ n1 ∧
        querySum rcig = m1.toNat ∧
        (totalLen rcig : ℤ) ≤ m1 + n1 - off ∧
        (∀ c ∈ rcig, 1 ≤ cigarLen c ∧ c < 2 ^ 32 ∧
          (cigarOp c = BAM_CINS ∨ cigarOp c = BAM_CDEL ∨
           cigarOp c = BAM_CSEQ_MATCH ∨ cigarOp c = BAM_CSEQ_MISMATCH)) := by
  obtain ⟨hw00, hwrow0, hwcol0, hwint⟩ := hwf
  intro fuel
  induction fuel with
  | zero =>
    intro m1 n1 h0m hQm h0n hLn hf
    omega
  | succ fuel ih =>
    intro m1 n1 h0m hQm h0n hLn hf
    by_cases hm : m1 ≤ 0
    · refine ⟨[], n1, ?_, h0n, le_refl n1, ?_, ?_, ?_⟩
      · simp [traceLoop, hm]
      · have hz : m1 = 0 := le_antisymm hm h0m
        simp [querySum, hz]
      · simp only [totalLen, List.map_nil, List.sum_nil, Nat.cast_zero]
        omega
      · simp
    · have hm1 : 1 ≤ m1 := by omega
      have hm1N : 1 ≤ m1.toNat := by omega
      have hmQ : m1.toNat ≤ Q := by omega
      -- characterize the cell read at (m1, n1)
      have hcases :
          (∃ z : ℕ, 1 ≤ z ∧ (z : ℤ) ≤ m1 ∧
            readTra mat m1.toNat n1.toNat = pack z BAM_CINS) ∨
          (∃ z : ℕ, 1 ≤ z ∧ (z : ℤ) ≤ n1 ∧
            readTra mat m1.toNat n1.toNat = pack z BAM_CDEL) ∨
          ((readTra mat m1.toNat n1.toNat = pack 1 BAM_CSEQ_MATCH ∨
            readTra mat m1.toNat n1.toNat = pack 1 BAM_CSEQ_MISMATCH) ∧
            1 ≤ n1) := by
        by_cases hn0 : n1.toNat = 0
        · left
          refine ⟨m1.toNat, hm1N, by omega, ?_⟩
          rw [hn0]
          exact hwcol0 m1.toNat hm1N hmQ
        · have h1n : 1 ≤ n1.toNat := by omega
          have hnL : n1.toNat ≤ L := by omega
          have := hwint m1.toNat n1.toNat hm1N hmQ h1n hnL
          rcases this with h | h | ⟨z, hz1, hz2, h⟩ | ⟨z, hz1, hz2, h⟩
          · exact Or.inr (Or.inr ⟨Or.inl h, by omega⟩)
          · exact Or.inr (Or.inr ⟨Or.inr h, by omega⟩)
          · exact Or.inl ⟨z, hz1, by omega, h⟩
          · exact Or.inr (Or.inl ⟨z, hz1, by omega, h⟩)
      have hpackIbound : ∀ z : ℕ, (z : ℤ) ≤ m1 → 16 * z + BAM_CINS < 2 ^ 32 := by
        intro z hzb
        have : z ≤ Q := by omega
        show 16 * z + 1 < 2 ^ 32
        calc 16 * z + 1 ≤ 16 * Q + 1 := by omega
          _ < 2 ^ 32 := by omega
      have hpackDbound : ∀ z : ℕ, (z : ℤ) ≤ n1 → 16 * z + BAM_CDEL < 2 ^ 32 := by
        intro z hzb
        have : z ≤ L := by omega
        show 16 * z + 2 < 2 ^ 32
        calc 16 * z + 2 ≤ 16 * L + 2 := by omega
          _ < 2 ^ 32 := by omega
      rcases hcases with ⟨z, hz1, hzm, hcell⟩ | ⟨z, hz1, hzn, hcell⟩ | ⟨hdiag, hn1⟩
      · -- insertion: vertical move
        have hb : 16 * z + BAM_CINS < 2 ^ 32 := hpackIbound z hzm
        have hopc : cigarOp (readTra mat m1.toNat n1.toNat) = BAM_CINS := by
          rw [hcell]; exact cigarOp_pack (by norm_num [BAM_CINS]) hb
        have hlenc : cigarLen (readTra mat m1.toNat n1.toNat) = z := by
          rw [hcell]; exact cigarLen_pack (by norm_num [BAM_CINS]) hb
        obtain ⟨rcig, off, heq, hoff0, hoffn, hqs, htl, hmem⟩ :=
          ih (m1 - z) n1 (by omega) (by omega) h0n hLn (by omega)
        refine ⟨readTra mat m1.toNat n1.toNat :: rcig, off, ?_, hoff0,
          hoffn, ?_, ?_, ?_⟩
        · simp only [traceLoop]
          rw [if_neg hm]
          simp only [hopc, hlenc]
          have hne1 : ¬ (BAM_CINS = BAM_CSEQ_MATCH ∨ BAM_CINS = BAM_CSEQ_MISMATCH) := by
            decide
          have hne2 : ¬ (BAM_CINS = BAM_CDEL) := by decide
          rw [if_neg hne1, if_neg hne2]
          simp only [if_true]
          rw [heq]
        · rw [querySum_cons, hopc, hlenc]
          have : consumesQuery BAM_CINS = true := by decide
          rw [this, if_pos rfl]
          omega
        · rw [totalLen_cons, hlenc]
          push_cast
          omega
        · intro c hc
          rcases List.mem_cons.mp hc with rfl | hc
          · exact ⟨by rw [hlenc]; omega, by rw [hcell]; rw [pack_eq (by norm_num [BAM_CINS]) hb]; omega,
              Or.inl hopc⟩
          · exact hmem c hc
      · -- deletion: horizontal move
        have hb : 16 * z + BAM_CDEL < 2 ^ 32 := hpackDbound z hzn
        have hopc : cigarOp (readTra mat m1.toNat n1.toNat) = BAM_CDEL := by
          rw [hcell]; exact cigarOp_pack (by norm_num [BAM_CDEL]) hb
        have hlenc : cigarLen (readTra mat m1.toNat n1.toNat) = z := by
          rw [hcell]; exact cigarLen_pack (by norm_num [BAM_CDEL]) hb
        obtain ⟨rcig, off, heq, hoff0, hoffn, hqs, htl, hmem⟩ :=
          ih m1 (n1 - z) h0m hQm (by omega) (by omega) (by omega)
        refine ⟨readTra mat m1.toNat n1.toNat :: rcig, off, ?_, hoff0,
          by omega, ?_, ?_, ?_⟩
        · simp only [traceLoop]
          rw [if_neg hm]
          simp only [hopc, hlenc]
          have hne1 : ¬ (BAM_CDEL = BAM_CSEQ_MATCH ∨ BAM_CDEL = BAM_CSEQ_MISMATCH) := by
            decide
          rw [if_neg hne1]
          simp only [if_true]
          rw [heq]
        · rw [querySum_cons, hopc]
          have : consumesQuery BAM_CDEL = false := by decide
          rw [this]
          simpa using hqs
        · rw [totalLen_cons, hlenc]
          push_cast
          omega
        · intro c hc
          rcases List.mem_cons.mp hc with rfl | hc
          · exact ⟨by rw [hlenc]; omega, by rw [hcell]; rw [pack_eq (by norm_num [BAM_CDEL]) hb]; omega,
              Or.inr (Or.inl hopc)⟩
          · exact hmem c hc
      · -- diagonal: `=` or `X`, run length 1
        have hbM : 16 * 1 + BAM_CSEQ_MATCH < 2 ^ 32 := by norm_num [BAM_CSEQ_MATCH]
        have hbX : 16 * 1 + BAM_CSEQ_MISMATCH < 2 ^ 32 := by norm_num [BAM_CSEQ_MISMATCH]
        obtain ⟨st, hst78, hcell⟩ :
            ∃ st, (st = BAM_CSEQ_MATCH ∨ st = BAM_CSEQ_MISMATCH) ∧
              readTra mat m1.toNat n1.toNat = pack 1 st := by
          rcases hdiag with h | h
          · exact ⟨BAM_CSEQ_MATCH, Or.inl rfl, h⟩
          · exact ⟨BAM_CSEQ_MISMATCH, Or.inr rfl, h⟩
        have hstlt : st < 16 := by rcases hst78 with rfl | rfl <;> norm_num [BAM_CSEQ_MATCH, BAM_CSEQ_MISMATCH]
        have hb : 16 * 1 + st < 2 ^ 32 := by rcases hst78 with rfl | rfl <;> assumption
        have hopc : cigarOp (readTra mat m1.toNat n1.toNat) = st := by
          rw [hcell]; exact cigarOp_pack hstlt hb
        have hlenc : cigarLen (readTra mat m1.toNat n1.toNat) = 1 := by
          rw [hcell]; exact cigarLen_pack hstlt hb
        obtain ⟨rcig, off, heq, hoff0, hoffn, hqs, htl, hmem⟩ :=
          ih (m1 - 1) (n1 - 1) (by omega) (by omega) (by omega) (by omega) (by omega)
        have hcq : consumesQuery st = true := by
          rcases hst78 with rfl | rfl <;> decide
        have hstep : traceLoop mat (fuel + 1) m1 n1 =
            match traceLoop mat fuel (m1 - 1) (n1 - 1) with
            | none => none
            | some (rcig, off) =>
              match rcig with
              | c2 :: rest =>
                  if cigarOp c2 = st then some (pack (cigarLen c2 + 1) st :: rest, off)
                  else some (pack 1 st :: c2 :: rest, off)
              | [] => some ([pack 1 st], off) := by
          simp only [traceLoop]
          rw [if_neg hm]
          simp only [hopc, hlenc]
          rw [if_pos hst78]
          norm_num
        rcases hrc : rcig with _ | ⟨c2, rest⟩
        · -- empty continuation: m1 - 1 = 0
          have hm1e : m1 = 1 := by
            have h0 : querySum rcig = (m1 - 1).toNat := hqs
            rw [hrc] at h0
            simp [querySum] at h0
            omega
          refine ⟨[pack 1 st], off, ?_, hoff0, by omega, ?_, ?_, ?_⟩
          · rw [hstep, heq, hrc]
          · simp [querySum, cigarOp_pack hstlt hb, cigarLen_pack hstlt hb, hcq, hm1e]
          · simp only [totalLen, List.map_cons, List.map_nil, List.sum_cons,
              List.sum_nil, cigarLen_pack hstlt hb]
            omega
          · intro c hc
            rcases List.mem_cons.mp hc with rfl | hc
            · refine ⟨by rw [cigarLen_pack hstlt hb], ?_, ?_⟩
              · rw [pack_eq hstlt hb]; omega
              · rcases hst78 with rfl | rfl
                · exact Or.inr (Or.inr (Or.inl (cigarOp_pack hstlt hb)))
                · exact Or.inr (Or.inr (Or.inr (cigarOp_pack hstlt hb)))
            · simp at hc
        · -- non-empty continuation: merge when the next cell has the same op
          have hc2mem := hmem c2 (by rw [hrc]; exact List.mem_cons_self c2 rest)
          obtain ⟨hc2len, hc2lt, hc2op⟩ := hc2mem
          have hc2tl : (cigarLen c2 : ℤ) ≤ m1 - 1 + (n1 - 1) - off := by
            have : (cigarLen c2 : ℤ) ≤ (totalLen rcig : ℤ) := by
              have hmem2 : cigarLen c2 ∈ rcig.map cigarLen := by
                rw [hrc]; exact List.mem_map_of_mem cigarLen (List.mem_cons_self c2 rest)
              exact_mod_cast List.le_sum_of_mem hmem2
            omega
          by_cases hmerge : cigarOp c2 = st
          · have hbm : 16 * (cigarLen c2 + 1) + st < 2 ^ 32 := by
              have : (cigarLen c2 : ℤ) + 1 ≤ Q + L := by omega
              have hc2QL : cigarLen c2 + 1 ≤ Q + L := by exact_mod_cast this
              omega
            refine ⟨pack (cigarLen c2 + 1) st :: rest, off, ?_, hoff0, by omega,
              ?_, ?_, ?_⟩
            · rw [hstep, heq, hrc]
              simp only [hmerge, if_true]
            · have hqs2 : querySum (c2 :: rest) = (m1 - 1).toNat := by
                rw [← hrc]; exact hqs
              rw [querySum_cons, hmerge, hcq, if_pos rfl] at hqs2
              rw [querySum_cons, cigarOp_pack hstlt hbm, hcq, if_pos rfl,
                cigarLen_pack hstlt hbm]
              omega
            · have htl2 : (totalLen (c2 :: rest) : ℤ) ≤ m1 - 1 + (n1 - 1) - off := by
                rw [← hrc]; exact htl
              rw [totalLen_cons] at htl2
              rw [totalLen_cons, cigarLen_pack hstlt hbm]
              push_cast at htl2 ⊢
              omega
            · intro c hc
              rcases List.mem_cons.mp hc with rfl | hc
              · refine ⟨by rw [cigarLen_pack hstlt hbm]; omega, ?_, ?_⟩
                · rw [pack_eq hstlt hbm]; omega
                · rcases hst78 with rfl | rfl
                  · exact Or.inr (Or.inr (Or.inl (cigarOp_pack hstlt hbm)))
                  · exact Or.inr (Or.inr (Or.inr (cigarOp_pack hstlt hbm)))
              · exact hmem c (by rw [hrc]; exact List.mem_cons_of_mem c2 hc)
          · refine ⟨pack 1 st :: c2 :: rest, off, ?_, hoff0, by omega, ?_, ?_, ?_⟩
            · rw [hstep, heq, hrc]
              simp only [if_neg hmerge]
            · have hqs2 : querySum (c2 :: rest) = (m1 - 1).toNat := by
                rw [← hrc]; exact hqs
              rw [querySum_cons, cigarOp_pack hstlt hb, hcq, if_pos rfl,
                cigarLen_pack hstlt hb, hqs2]
              omega
            · have htl2 : (totalLen (c2 :: rest) : ℤ) ≤ m1 - 1 + (n1 - 1) - off := by
                rw [← hrc]; exact htl
              rw [totalLen_cons, cigarLen_pack hstlt hb]
              push_cast at htl2 ⊢
              omega
            · intro c hc
              rcases List.mem_cons.mp hc with rfl | hc
              · refine ⟨by rw [cigarLen_pack hstlt hb], ?_, ?_⟩
                · rw [pack_eq hstlt hb]; omega
                · rcases hst78 with rfl | rfl
                  · exact Or.inr (Or.inr (Or.inl (cigarOp_pack hstlt hb)))
                  · exact Or.inr (Or.inr (Or.inr (cigarOp_pack hstlt hb)))
              · exact hmem c (by rw [hrc]; exact hc)

theorem querySum_append (l1 l2 : List ℕ) :
    querySum (l1 ++ l2) = querySum l1 + querySum l2 := by
  simp [querySum]

theorem totalLen_append (l1 l2 : List ℕ) :
    totalLen (l1 ++ l2) = totalLen l1 + totalLen l2 := by
  simp [totalLen]

theorem querySum_reverse (l : List ℕ) : querySum l.reverse = querySum l := by
  simp [querySum, List.map_reverse, List.sum_reverse]

theorem totalLen_reverse (l : List ℕ) : totalLen l.reverse = totalLen l := by
  simp [totalLen, List.map_reverse, List.sum_reverse]

theorem asw_locate_go_col_lt (vec : List ℤ) :
    ∀ (k n1 : ℕ) (opt : ℤ) (col : ℕ), col < n1 →
      (asw_locate_go vec k n1 opt col).2 < n1 + k := by
  intro k
  induction k with
  | zero =>
    intro n1 opt col h
    simpa [asw_locate_go] using by omega
  | succ k ih =>
    intro n1 opt col h
    simp only [asw_locate_go]
    split_ifs
    · have := ih (n1 + 1) (vec.getD n1 0) n1 (by omega)
      omega
    · have := ih (n1 + 1) opt col (by omega)
      omega

theorem asw_locate_minscore_col_le (vec : List ℤ) (L : ℕ) :
    (asw_locate_minscore vec L).2 ≤ L := by
  have := asw_locate_go_col_lt vec L 1 (vec.getD 0 0) 0 (by omega)
  unfold asw_locate_minscore
  omega

/-! ### Claim C10: traceback termination -/

/-- Claim C10: for the trace matrix produced by align_init (either mode)
followed by align on non-empty subviews, and any starting column
`opt_col ≤ subdb_len`, the matrix satisfies the step invariants (every cell
below row 0 has run length at least 1; an I cell of run length `z ≤ i` moves
the row down by `z`; a D cell of run length `z ≤ j` keeps the row and moves
the column left by `z`; diagonal cells have run length 1) and the traceback
loop terminates, reaching row 0 with a final column at least 0. -/
theorem C10_traceback_terminates (P : AswParams) (subdb subquery : List Char)
    (subqual : List ℕ) (semi : Bool) (opt_col : ℕ)
    (hq : 1 ≤ subquery.length) (hd : 1 ≤ subdb.length)
    (hcol : opt_col ≤ subdb.length)
    (hsz : subquery.length + subdb.length < 2 ^ 28) :
    trace_matrix_ok (alignMatrix P subdb subquery subqual semi).1
        subquery.length subdb.length ∧
    ∃ cig off, asw_trace (alignMatrix P subdb subquery subqual semi).1
        subquery.length opt_col = some (cig, off) ∧
      0 ≤ off ∧ off ≤ (opt_col : ℤ) := by
  have hwf := alignMatrix_trace_ok P subdb subquery subqual semi
  refine ⟨hwf, ?_⟩
  obtain ⟨rcig, off, heq, h1, h2, _, _, _⟩ :=
    traceLoop_spec _ _ _ hwf hsz (subquery.length + opt_col + 1)
      (subquery.length : ℤ) (opt_col : ℤ)
      (by positivity) (le_refl _) (by positivity) (by exact_mod_cast hcol)
      (by omega)
  refine ⟨rcig.reverse, off, ?_, h1, h2⟩
  unfold asw_trace
  rw [heq]

/-- Witness for C10 at a 1x1 alignment. -/
theorem C10_traceback_terminates_witness :
    (1 ≤ ("A".data : List Char).length ∧ 1 ≤ ("A".data : List Char).length ∧
     1 ≤ 1 ∧ ("A".data : List Char).length + ("A".data : List Char).length
        < 2 ^ 28) ∧
    trace_matrix_ok (alignMatrix Pdemo "A".data "A".data [73] false).1
        ("A".data : List Char).length ("A".data : List Char).length :=
  ⟨⟨by decide, by decide, le_refl 1, by decide⟩,
   (C10_traceback_terminates Pdemo "A".data "A".data [73] false 1
     (by decide) (by decide) (by decide) (by decide)).1⟩

/-! ### Claim C4: CIGAR query length -/

theorem querySum_cons_pack (z op : ℕ) (l : List ℕ) (hop : op < 16)
    (hz : 16 * z + op < 2 ^ 32) :
    querySum (pack z op :: l) =
      (if consumesQuery op then z else 0) + querySum l := by
  rw [querySum_cons, cigarOp_pack hop hz, cigarLen_pack hop hz]

theorem totalLen_cons_pack (z op : ℕ) (l : List ℕ) (hop : op < 16)
    (hz : 16 * z + op < 2 ^ 32) :
    totalLen (pack z op :: l) = z + totalLen l := by
  rw [totalLen_cons, cigarLen_pack hop hz]

theorem head_match_add_le (query subdb : List Char) :
    ∀ (clip : ℕ) (qi di : ℤ), head_match_add query subdb clip qi di ≤ clip := by
  intro clip
  induction clip with
  | zero => intro qi di; simp [head_match_add]
  | succ clip ih =>
    intro qi di
    simp only [head_match_add]
    split_ifs
    · have := ih (qi - 1) (di - 1); omega
    · omega

theorem tail_match_add_le (query subdb : List Char) :
    ∀ (clip : ℕ) (qi di : ℤ), tail_match_add query subdb clip qi di ≤ clip := by
  intro clip
  induction clip with
  | zero => intro qi di; simp [tail_match_add]
  | succ clip ih =>
    intro qi di
    simp only [tail_match_add]
    split_ifs
    · have := ih (qi + 1) (di + 1); omega
    · omega

/-- The head half of `asw_append_softclip` adds exactly `clip_head` to the
query consumption and to the total length of the CIGAR, whichever branch
(extend an existing `S`, contract into a leading `=`/`M`, or prepend a new
`S`) runs. -/
theorem append_softclip_head_sums (query subdb : List Char) (ch : ℕ)
    (cig : List ℕ) (off : ℤ)
    (hsz : totalLen cig + ch < 2 ^ 28) :
    querySum (append_softclip_head query subdb ch cig off).1
        = querySum cig + ch ∧
    totalLen (append_softclip_head query subdb ch cig off).1
        = totalLen cig + ch := by
  by_cases hch : ch = 0
  · simp [append_softclip_head, hch]
  cases cig with
  | nil =>
    have hb : 16 * ch + BAM_CSOFT_CLIP < 2 ^ 32 := by
      simp [totalLen] at hsz
      show 16 * ch + 4 < 2 ^ 32
      omega
    simp only [append_softclip_head, if_neg hch]
    constructor
    · rw [querySum_cons_pack ch BAM_CSOFT_CLIP [] (by norm_num [BAM_CSOFT_CLIP]) hb]
      simp [querySum, consumesQuery, BAM_CSOFT_CLIP]
    · rw [totalLen_cons_pack ch BAM_CSOFT_CLIP [] (by norm_num [BAM_CSOFT_CLIP]) hb]
      simp [totalLen]
  | cons c rest =>
    have hz : cigarLen c + totalLen rest = totalLen (c :: rest) := by
      rw [totalLen_cons]
    have hzb : cigarLen c + totalLen rest + ch < 2 ^ 28 := by omega
    simp only [append_softclip_head, if_neg hch]
    by_cases hS : cigarOp c = BAM_CSOFT_CLIP
    · have hb : 16 * (ch + cigarLen c) + BAM_CSOFT_CLIP < 2 ^ 32 := by
        show 16 * (ch + cigarLen c) + 4 < 2 ^ 32
        omega
      simp only [hS, if_true]
      constructor
      · rw [querySum_cons_pack _ _ _ (by norm_num [BAM_CSOFT_CLIP]) hb,
          querySum_cons, hS]
        have hcq : consumesQuery BAM_CSOFT_CLIP = true := by decide
        rw [hcq]
        simp
        omega
      · rw [totalLen_cons_pack _ _ _ (by norm_num [BAM_CSOFT_CLIP]) hb,
          totalLen_cons]
        omega
    · rw [if_neg hS]
      by_cases hM : cigarOp c = BAM_CSEQ_MATCH ∨ cigarOp c = BAM_CMATCH
      · rw [if_pos hM]
        have hst16 : cigarOp c < 16 := by
          rcases hM with h | h <;> rw [h] <;> norm_num [BAM_CSEQ_MATCH, BAM_CMATCH]
        have hcqM : consumesQuery (cigarOp c) = true := by
          rcases hM with h | h <;> rw [h] <;> decide
        set ma := head_match_add query subdb ch (ch : ℤ) off with hma
        have hmale : ma ≤ ch := head_match_add_le query subdb ch (ch : ℤ) off
        have hbm : 16 * (cigarLen c + ma) + cigarOp c < 2 ^ 32 := by omega
        have hbc : 16 * (ch - ma) + BAM_CSOFT_CLIP < 2 ^ 32 := by
          show 16 * (ch - ma) + 4 < 2 ^ 32
          omega
        have hcqS : consumesQuery BAM_CSOFT_CLIP = true := by decide
        have hopS : BAM_CSOFT_CLIP < 16 := by norm_num [BAM_CSOFT_CLIP]
        by_cases hma0 : 0 < ma
        · by_cases hcl : 0 < ch - ma
          · simp only [if_pos hma0, if_pos hcl]
            constructor
            · rw [querySum_cons_pack _ _ _ hopS hbc,
                querySum_cons_pack _ _ _ hst16 hbm, querySum_cons]
              simp only [hcqM, hcqS, if_true]
              omega
            · rw [totalLen_cons_pack _ _ _ hopS hbc,
                totalLen_cons_pack _ _ _ hst16 hbm, totalLen_cons]
              omega
          · simp only [if_pos hma0, if_neg hcl]
            have hmach : ma = ch := by omega
            constructor
            · rw [querySum_cons_pack _ _ _ hst16 hbm, querySum_cons]
              simp only [hcqM, if_true]
              omega
            · rw [totalLen_cons_pack _ _ _ hst16 hbm, totalLen_cons]
              omega
        · have hcl2 : 0 < ch - ma := by omega
          simp only [if_neg hma0, if_pos hcl2]
          constructor
          · rw [querySum_cons_pack _ _ _ hopS hbc]
            simp only [hcqS, if_true]
            omega
          · rw [totalLen_cons_pack _ _ _ hopS hbc]
            omega
      · rw [if_neg hM]
        have hb : 16 * ch + BAM_CSOFT_CLIP < 2 ^ 32 := by
          show 16 * ch + 4 < 2 ^ 32
          omega
        constructor
        · rw [querySum_cons_pack _ _ _ (by norm_num [BAM_CSOFT_CLIP]) hb]
          have : consumesQuery BAM_CSOFT_CLIP = true := by decide
          rw [this]
          simp
          omega
        · rw [totalLen_cons_pack _ _ _ (by norm_num [BAM_CSOFT_CLIP]) hb]
          omega

/-- The tail half of `asw_append_softclip` adds exactly `clip_tail` to the
query consumption of the CIGAR. -/
theorem append_softclip_tail_querySum (query subdb : List Char)
    (ch ct sql sdl : ℕ) (cig : List ℕ) (off : ℤ)
    (hsz : totalLen cig + ct < 2 ^ 28) :
    querySum (append_softclip_tail query subdb ch ct sql sdl cig off)
      = querySum cig + ct := by
  by_cases hct : ct = 0
  · simp [append_softclip_tail, hct]
  have hcqS : consumesQuery BAM_CSOFT_CLIP = true := by decide
  have hopS : BAM_CSOFT_CLIP < 16 := by norm_num [BAM_CSOFT_CLIP]
  rcases hgl : cig.getLast? with _ | c
  · have hnil : cig = [] := by
      cases cig with
      | nil => rfl
      | cons a t => simp [List.getLast?_concat] at hgl
    subst hnil
    have hb : 16 * ct + BAM_CSOFT_CLIP < 2 ^ 32 := by
      show 16 * ct + 4 < 2 ^ 32
      simp [totalLen] at hsz
      omega
    simp only [append_softclip_tail, if_neg hct, hgl]
    rw [querySum_cons_pack _ _ _ hopS hb]
    simp [querySum, hcqS]
  · obtain ⟨ys, rfl⟩ := List.getLast?_eq_some_iff.mp hgl
    have hdl : (ys ++ [c]).dropLast = ys := by
      simp [List.dropLast_concat]
    have htot : totalLen (ys ++ [c]) = totalLen ys + cigarLen c := by
      rw [totalLen_append, totalLen_cons]
      simp [totalLen]
    have hqys : querySum (ys ++ [c]) = querySum ys +
        (if consumesQuery (cigarOp c) then cigarLen c else 0) := by
      rw [querySum_append, querySum_cons]
      simp [querySum]
    simp only [append_softclip_tail, if_neg hct, hgl]
    by_cases hS : cigarOp c = BAM_CSOFT_CLIP
    · have hb : 16 * (ct + cigarLen c) + BAM_CSOFT_CLIP < 2 ^ 32 := by
        show 16 * (ct + cigarLen c) + 4 < 2 ^ 32
        omega
      simp only [hS, if_true, hdl]
      rw [querySum_append, querySum_cons_pack _ _ _ hopS hb, hqys, hS]
      simp [querySum, hcqS]
      omega
    · rw [if_neg hS]
      by_cases hM : cigarOp c = BAM_CSEQ_MATCH ∨ cigarOp c = BAM_CMATCH
      · rw [if_pos hM]
        have hst16 : cigarOp c < 16 := by
          rcases hM with h | h <;> rw [h] <;> norm_num [BAM_CSEQ_MATCH, BAM_CMATCH]
        have hcqM : consumesQuery (cigarOp c) = true := by
          rcases hM with h | h <;> rw [h] <;> decide
        set ma := tail_match_add query subdb ct
          ((ch : ℤ) + (sql : ℤ) - 1) (off + (sdl : ℤ) - 1) with hma
        have hmale : ma ≤ ct :=
          tail_match_add_le query subdb ct ((ch : ℤ) + (sql : ℤ) - 1)
            (off + (sdl : ℤ) - 1)
        have hbm : 16 * (cigarLen c + ma) + cigarOp c < 2 ^ 32 := by omega
        have hbc : 16 * (ct - ma) + BAM_CSOFT_CLIP < 2 ^ 32 := by
          show 16 * (ct - ma) + 4 < 2 ^ 32
          omega
        by_cases hma0 : 0 < ma
        · by_cases hcl : 0 < ct - ma
          · simp only [if_pos hma0, if_pos hcl, hdl]
            rw [querySum_append, querySum_append,
              querySum_cons_pack _ _ _ hst16 hbm,
              querySum_cons_pack _ _ _ hopS hbc, hqys]
            simp only [hcqM, hcqS, if_true]
            simp [querySum]
            omega
          · simp only [if_pos hma0, if_neg hcl, hdl]
            rw [querySum_append, querySum_cons_pack _ _ _ hst16 hbm, hqys]
            simp only [hcqM, hcqS, if_true]
            simp [querySum]
            omega
        · have hcl2 : 0 < ct - ma := by omega
          simp only [if_neg hma0, if_pos hcl2]
          rw [querySum_append, querySum_cons_pack _ _ _ hopS hbc]
          simp [querySum, hcqS]
          omega
      · rw [if_neg hM]
        have hb : 16 * ct + BAM_CSOFT_CLIP < 2 ^ 32 := by
          show 16 * ct + 4 < 2 ^ 32
          omega
        rw [querySum_append, querySum_cons_pack _ _ _ hopS hb]
        simp [querySum, hcqS]

/-- `asw_append_softclip` adds exactly `clip_head + clip_tail` query
characters to the CIGAR. -/
theorem asw_append_softclip_querySum (query subdb : List Char)
    (ch ct sql sdl : ℕ) (cig : List ℕ) (off : ℤ)
    (hsz : totalLen cig + ch + ct < 2 ^ 28) :
    querySum (asw_append_softclip query subdb ch ct sql sdl cig off).1
      = querySum cig + ch + ct := by
  obtain ⟨hq, ht⟩ := append_softclip_head_sums query subdb ch cig off (by omega)
  unfold asw_append_softclip
  dsimp only
  rw [append_softclip_tail_querySum query subdb ch ct sql sdl _ _
    (by rw [ht]; omega), hq]

/-- Claim C4: for every successful alignment on non-empty subviews the CIGAR
delimited by `cigar_begin`/`cigar_end` emitted by `asw_trace` (from the
column found by `asw_locate_minscore`) consumes exactly `subquery_len` query
characters — the run lengths of its M/I/S/=/X ops sum to `subquery_len` —
and after `asw_append_softclip` adds the head/tail clips that sum equals
`query_len = clip_head + subquery_len + clip_tail`. -/
theorem C4_cigar_query_length (P : AswParams) (query subdb subquery : List Char)
    (subqual : List ℕ) (semi : Bool) (clip_head clip_tail : ℕ)
    (hq : 1 ≤ subquery.length) (hd : 1 ≤ subdb.length)
    (hsz : subquery.length + subdb.length + clip_head + clip_tail < 2 ^ 28) :
    ∃ cig off,
      asw_trace (alignMatrix P subdb subquery subqual semi).1 subquery.length
          (asw_locate_minscore (alignMatrix P subdb subquery subqual semi).2
            subdb.length).2 = some (cig, off) ∧
      querySum cig = subquery.length ∧
      querySum (asw_append_softclip query subdb clip_head clip_tail
          subquery.length subdb.length cig off).1
        = clip_head + subquery.length + clip_tail := by
  have hwf := alignMatrix_trace_ok P subdb subquery subqual semi
  have hcolle : (asw_locate_minscore
      (alignMatrix P subdb subquery subqual semi).2 subdb.length).2
        ≤ subdb.length :=
    asw_locate_minscore_col_le _ _
  obtain ⟨rcig, off, heq, h1, h2, hqs, htl, hmem⟩ :=
    traceLoop_spec _ _ _ hwf (by omega)
      (subquery.length + (asw_locate_minscore
        (alignMatrix P subdb subquery subqual semi).2 subdb.length).2 + 1)
      (subquery.length : ℤ)
      ((asw_locate_minscore
        (alignMatrix P subdb subquery subqual semi).2 subdb.length).2 : ℤ)
      (by positivity) (le_refl _) (by positivity) (by exact_mod_cast hcolle)
      (by omega)
  refine ⟨rcig.reverse, off, ?_, ?_, ?_⟩
  · unfold asw_trace
    rw [heq]
  · rw [querySum_reverse, hqs]
    simp
  · rw [asw_append_softclip_querySum, querySum_reverse, hqs]
    · simp
      omega
    · rw [totalLen_reverse]
      have hb : (totalLen rcig : ℤ) ≤ (subquery.length : ℤ) +
          ((asw_locate_minscore
            (alignMatrix P subdb subquery subqual semi).2 subdb.length).2 : ℤ)
          - off := htl
      have hb2 : totalLen rcig ≤ subquery.length + subdb.length := by omega
      omega

/-- Witness for C4 at a concrete 1x1 alignment with no clips. -/
theorem C4_cigar_query_length_witness :
    (1 ≤ ("A".data : List Char).length ∧ 1 ≤ ("A".data : List Char).length ∧
     ("A".data : List Char).length + ("A".data : List Char).length + 0 + 0
        < 2 ^ 28) ∧
    (∃ cig off,
      asw_trace (alignMatrix Pdemo "A".data "A".data [73] false).1
          ("A".data : List Char).length
          (asw_locate_minscore
            (alignMatrix Pdemo "A".data "A".data [73] false).2
            ("A".data : List Char).length).2 = some (cig, off) ∧
      querySum cig = ("A".data : List Char).length ∧
      querySum (asw_append_softclip "A".data "A".data 0 0
          ("A".data : List Char).length ("A".data : List Char).length cig off).1
        = 0 + ("A".data : List Char).length + 0) :=
  ⟨⟨by decide, by decide, by decide⟩,
   C4_cigar_query_length Pdemo "A".data "A".data "A".data [73] false 0 0
     (by decide) (by decide) (by decide)⟩

/-! ### Claim C6: softclip_trace boundary shape and second invocation -/

theorem softclip_scan3_snd_shape :
    ∀ (l : List ℕ) (acc : ℕ),
      (softclip_scan3 l acc).2 = [] ∨
      (∃ e t, (softclip_scan3 l acc).2 = e :: t ∧
        cigarOp e = BAM_CSEQ_MATCH) := by
  intro l
  induction l with
  | nil => intro acc; left; rfl
  | cons c rest ih =>
    intro acc
    by_cases h : cigarOp c = BAM_CSEQ_MATCH
    · right
      exact ⟨c, rest, by simp [softclip_scan3, h], h⟩
    · by_cases h2 : cigarOp c ≠ BAM_CDEL ∧ cigarOp c ≠ BAM_CHARD_CLIP
      · simpa [softclip_scan3, h, h2] using ih (acc + cigarLen c)
      · simpa [softclip_scan3, h, h2] using ih acc

theorem softclip_scan3_snd_suffix :
    ∀ (l : List ℕ) (acc : ℕ), ∃ pre, l = pre ++ (softclip_scan3 l acc).2 := by
  intro l
  induction l with
  | nil => intro acc; exact ⟨[], rfl⟩
  | cons c rest ih =>
    intro acc
    by_cases h : cigarOp c = BAM_CSEQ_MATCH
    · exact ⟨[], by simp [softclip_scan3, h]⟩
    · by_cases h2 : cigarOp c ≠ BAM_CDEL ∧ cigarOp c ≠ BAM_CHARD_CLIP
      · obtain ⟨pre, hpre⟩ := ih (acc + cigarLen c)
        refine ⟨c :: pre, ?_⟩
        simp [softclip_scan3, h, h2]
        exact hpre
      · obtain ⟨pre, hpre⟩ := ih acc
        refine ⟨c :: pre, ?_⟩
        simp [softclip_scan3, h, h2]
        exact hpre

theorem softclip_scan3_fst_le :
    ∀ (l : List ℕ) (acc : ℕ),
      (softclip_scan3 l acc).1 ≤ acc + totalLen l := by
  intro l
  induction l with
  | nil => intro acc; simp [softclip_scan3, totalLen]
  | cons c rest ih =>
    intro acc
    by_cases h : cigarOp c = BAM_CSEQ_MATCH
    · simp [softclip_scan3, h, totalLen_cons]
    · by_cases h2 : cigarOp c ≠ BAM_CDEL ∧ cigarOp c ≠ BAM_CHARD_CLIP
      · have := ih (acc + cigarLen c)
        simp only [softclip_scan3, if_neg h, if_pos h2]
        rw [totalLen_cons]
        omega
      · have := ih acc
        simp only [softclip_scan3, if_neg h, if_neg h2]
        rw [totalLen_cons]
        omega

theorem softclip_scan3_all_DH :
    ∀ (l : List ℕ) (acc : ℕ), (∀ c ∈ l, 1 ≤ cigarLen c) →
      (softclip_scan3 l acc).2 = [] → (softclip_scan3 l acc).1 = acc →
      ∀ c ∈ l, cigarOp c = BAM_CDEL ∨ cigarOp c = BAM_CHARD_CLIP := by
  intro l
  induction l with
  | nil => intro acc _ _ _ c hc; cases hc
  | cons c rest ih =>
    intro acc hlen hsnd hfst x hx
    by_cases h : cigarOp c = BAM_CSEQ_MATCH
    · simp [softclip_scan3, h] at hsnd
    · by_cases h2 : cigarOp c ≠ BAM_CDEL ∧ cigarOp c ≠ BAM_CHARD_CLIP
      · exfalso
        simp only [softclip_scan3, if_neg h, if_pos h2] at hsnd hfst
        have hge : ∀ (m : List ℕ) (a : ℕ), a ≤ (softclip_scan3 m a).1 := by
          intro m
          induction m with
          | nil => intro a; simp [softclip_scan3]
          | cons d t iht =>
            intro a
            by_cases hd : cigarOp d = BAM_CSEQ_MATCH
            · simp [softclip_scan3, hd]
            · by_cases hd2 : cigarOp d ≠ BAM_CDEL ∧ cigarOp d ≠ BAM_CHARD_CLIP
              · have := iht (a + cigarLen d)
                simp only [softclip_scan3, if_neg hd, if_pos hd2]
                omega
              · have := iht a
                simp only [softclip_scan3, if_neg hd, if_neg hd2]
                omega
        have := hge rest (acc + cigarLen c)
        have hc1 : 1 ≤ cigarLen c := hlen c (List.mem_cons_self c rest)
        omega
      · simp only [softclip_scan3, if_neg h, if_neg h2] at hsnd hfst
        rcases List.mem_cons.mp hx with rfl | hx
        · by_cases hD : cigarOp x = BAM_CDEL
          · exact Or.inl hD
          · right
            by_contra hH
            exact h2 ⟨hD, hH⟩
        · exact ih acc (fun y hy => hlen y (List.mem_cons_of_mem c hy)) hsnd hfst x hx

theorem softclip_scan5_snd_shape :
    ∀ (l : List ℕ) (acc : ℕ) (off : ℤ),
      (softclip_scan5 l acc off).2.2 = [] ∨
      (∃ e t, (softclip_scan5 l acc off).2.2 = e :: t ∧
        cigarOp e = BAM_CSEQ_MATCH) := by
  intro l
  induction l with
  | nil => intro acc off; left; rfl
  | cons c rest ih =>
    intro acc off
    by_cases h : cigarOp c = BAM_CSEQ_MATCH
    · right
      exact ⟨c, rest, by simp [softclip_scan5, h], h⟩
    · by_cases h2 : cigarOp c = BAM_CHARD_CLIP
      · simpa [softclip_scan5, h, h2] using ih acc off
      · simpa [softclip_scan5, h, h2] using
          ih (if cigarOp c ≠ BAM_CDEL then acc + cigarLen c else acc)
            (if cigarOp c ≠ BAM_CINS then off + (cigarLen c : ℤ) else off)

theorem softclip_scan5_snd_suffix :
    ∀ (l : List ℕ) (acc : ℕ) (off : ℤ),
      ∃ pre, l = pre ++ (softclip_scan5 l acc off).2.2 := by
  intro l
  induction l with
  | nil => intro acc off; exact ⟨[], rfl⟩
  | cons c rest ih =>
    intro acc off
    by_cases h : cigarOp c = BAM_CSEQ_MATCH
    · exact ⟨[], by simp [softclip_scan5, h]⟩
    · by_cases h2 : cigarOp c = BAM_CHARD_CLIP
      · obtain ⟨pre, hpre⟩ := ih acc off
        refine ⟨c :: pre, ?_⟩
        simp [softclip_scan5, h, h2]
        exact hpre
      · obtain ⟨pre, hpre⟩ :=
          ih (if cigarOp c ≠ BAM_CDEL then acc + cigarLen c else acc)
            (if cigarOp c ≠ BAM_CINS then off + (cigarLen c : ℤ) else off)
        refine ⟨c :: pre, ?_⟩
        simp only [softclip_scan5, if_neg h, if_neg h2]
        rw [List.cons_append]
        exact congrArg (c :: ·) hpre

theorem softclip_scan5_fst_le :
    ∀ (l : List ℕ) (acc : ℕ) (off : ℤ),
      (softclip_scan5 l acc off).1 ≤ acc + totalLen l := by
  intro l
  induction l with
  | nil => intro acc off; simp [softclip_scan5, totalLen]
  | cons c rest ih =>
    intro acc off
    by_cases h : cigarOp c = BAM_CSEQ_MATCH
    · simp [softclip_scan5, h, totalLen_cons]
    · by_cases h2 : cigarOp c = BAM_CHARD_CLIP
      · have := ih acc off
        simp only [softclip_scan5, if_neg h, if_pos h2]
        rw [totalLen_cons]
        omega
      · have := ih (if cigarOp c ≠ BAM_CDEL then acc + cigarLen c else acc)
          (if cigarOp c ≠ BAM_CINS then off + (cigarLen c : ℤ) else off)
        simp only [softclip_scan5, if_neg h, if_neg h2]
        rw [totalLen_cons]
        by_cases hD : cigarOp c ≠ BAM_CDEL
        · rw [if_pos hD] at this ⊢
          omega
        · rw [if_neg hD] at this ⊢
          omega

theorem softclip_scan5_all_DH :
    ∀ (l : List ℕ) (acc : ℕ) (off : ℤ), (∀ c ∈ l, 1 ≤ cigarLen c) →
      (softclip_scan5 l acc off).2.2 = [] → (softclip_scan5 l acc off).1 = acc →
      ∀ c ∈ l, cigarOp c = BAM_CDEL ∨ cigarOp c = BAM_CHARD_CLIP := by
  intro l
  induction l with
  | nil => intro acc off _ _ _ c hc; cases hc
  | cons c rest ih =>
    intro acc off hlen hsnd hfst x hx
    by_cases h : cigarOp c = BAM_CSEQ_MATCH
    · simp [softclip_scan5, h] at hsnd
    · by_cases h2 : cigarOp c = BAM_CHARD_CLIP
      · rcases List.mem_cons.mp hx with rfl | hx
        · exact Or.inr h2
        · simp only [softclip_scan5, if_neg h, if_pos h2] at hsnd hfst
          exact ih acc off (fun y hy => hlen y (List.mem_cons_of_mem c hy))
            hsnd hfst x hx
      · by_cases hD : cigarOp c = BAM_CDEL
        · rcases List.mem_cons.mp hx with rfl | hx
          · exact Or.inl hD
          · simp only [softclip_scan5, if_neg h, if_neg h2] at hsnd hfst
            rw [if_neg (by simpa using hD)] at hsnd hfst
            exact ih acc _ (fun y hy => hlen y (List.mem_cons_of_mem c hy))
              hsnd hfst x hx
        · exfalso
          simp only [softclip_scan5, if_neg h, if_neg h2] at hsnd hfst
          rw [if_pos (by simpa using hD)] at hsnd hfst
          have hge : ∀ (m : List ℕ) (a : ℕ) (o : ℤ),
              a ≤ (softclip_scan5 m a o).1 := by
            intro m
            induction m with
            | nil => intro a o; simp [softclip_scan5]
            | cons d t iht =>
              intro a o
              by_cases hd : cigarOp d = BAM_CSEQ_MATCH
              · simp [softclip_scan5, hd]
              · by_cases hd2 : cigarOp d = BAM_CHARD_CLIP
                · have := iht a o
                  simp only [softclip_scan5, if_neg hd, if_pos hd2]
                  omega
                · have := iht (if cigarOp d ≠ BAM_CDEL then a + cigarLen d else a)
                    (if cigarOp d ≠ BAM_CINS then o + (cigarLen d : ℤ) else o)
                  simp only [softclip_scan5, if_neg hd, if_neg hd2]
                  by_cases hdD : cigarOp d ≠ BAM_CDEL
                  · rw [if_pos hdD] at this ⊢
                    omega
                  · rw [if_neg hdD] at this ⊢
                    omega
          have := hge rest (acc + cigarLen c)
            (if cigarOp c ≠ BAM_CINS then off + (cigarLen c : ℤ) else off)
          have hc1 : 1 ≤ cigarLen c := hlen c (List.mem_cons_self c rest)
          omega

theorem notSeqEq_false_iff (c : ℕ) : notSeqEq c = false ↔ cigarOp c = BAM_CSEQ_MATCH := by
  simp [notSeqEq]

theorem scan3_snd_eq_dropWhile :
    ∀ (l : List ℕ) (acc : ℕ),
      (softclip_scan3 l acc).2 = l.dropWhile notSeqEq := by
  intro l
  induction l with
  | nil => intro acc; rfl
  | cons c rest ih =>
    intro acc
    by_cases h : cigarOp c = BAM_CSEQ_MATCH
    · have hb : notSeqEq c = false := (notSeqEq_false_iff c).mpr h
      simp [softclip_scan3, h, List.dropWhile_cons, hb]
    · have hb : notSeqEq c = true := by
        cases hb0 : notSeqEq c with
        | false => exact absurd ((notSeqEq_false_iff c).mp hb0) h
        | true => rfl
      by_cases h2 : cigarOp c ≠ BAM_CDEL ∧ cigarOp c ≠ BAM_CHARD_CLIP
      · simp only [softclip_scan3, if_neg h, if_pos h2, List.dropWhile_cons, hb, if_true]
        exact ih (acc + cigarLen c)
      · simp only [softclip_scan3, if_neg h, if_neg h2, List.dropWhile_cons, hb, if_true]
        exact ih acc

theorem scan5_snd_eq_dropWhile :
    ∀ (l : List ℕ) (acc : ℕ) (off : ℤ),
      (softclip_scan5 l acc off).2.2 = l.dropWhile notSeqEq := by
  intro l
  induction l with
  | nil => intro acc off; rfl
  | cons c rest ih =>
    intro acc off
    by_cases h : cigarOp c = BAM_CSEQ_MATCH
    · have hb : notSeqEq c = false := (notSeqEq_false_iff c).mpr h
      simp [softclip_scan5, h, List.dropWhile_cons, hb]
    · have hb : notSeqEq c = true := by
        cases hb0 : notSeqEq c with
        | false => exact absurd ((notSeqEq_false_iff c).mp hb0) h
        | true => rfl
      by_cases h2 : cigarOp c = BAM_CHARD_CLIP
      · simp only [softclip_scan5, if_neg h, if_pos h2, List.dropWhile_cons, hb, if_true]
        exact ih acc off
      · simp only [softclip_scan5, if_neg h, if_neg h2, List.dropWhile_cons, hb, if_true]
        exact ih _ _

theorem scan3_fst_add_totalLen_snd_le :
    ∀ (l : List ℕ) (acc : ℕ),
      (softclip_scan3 l acc).1 + totalLen (softclip_scan3 l acc).2 ≤
        acc + totalLen l := by
  intro l
  induction l with
  | nil => intro acc; simp [softclip_scan3, totalLen]
  | cons c rest ih =>
    intro acc
    by_cases h : cigarOp c = BAM_CSEQ_MATCH
    · simp only [softclip_scan3, if_pos h]
      omega
    · by_cases h2 : cigarOp c ≠ BAM_CDEL ∧ cigarOp c ≠ BAM_CHARD_CLIP
      · have := ih (acc + cigarLen c)
        simp only [softclip_scan3, if_neg h, if_pos h2]
        rw [totalLen_cons]
        omega
      · have := ih acc
        simp only [softclip_scan3, if_neg h, if_neg h2]
        rw [totalLen_cons]
        omega

theorem scan3_of_shape (l : List ℕ) (h2 : sct_shape l) :
    (if 0 < (softclip_scan3 l 0).1 then
       pack (softclip_scan3 l 0).1 BAM_CSOFT_CLIP :: (softclip_scan3 l 0).2
     else (softclip_scan3 l 0).2) = l := by
  rcases h2 with rfl | ⟨e, t0, rfl, he⟩ | ⟨b, u, rfl, hb0, hblt, hu⟩
  · simp [softclip_scan3]
  · have h3 : softclip_scan3 (e :: t0) 0 = (0, e :: t0) := by
      simp [softclip_scan3, he]
    rw [h3]
    simp
  · have hop : cigarOp (pack b BAM_CSOFT_CLIP) = BAM_CSOFT_CLIP :=
      cigarOp_pack (by norm_num [BAM_CSOFT_CLIP]) (by simp only [BAM_CSOFT_CLIP]; omega)
    have hlenp : cigarLen (pack b BAM_CSOFT_CLIP) = b :=
      cigarLen_pack (by norm_num [BAM_CSOFT_CLIP]) (by simp only [BAM_CSOFT_CLIP]; omega)
    have h3 : softclip_scan3 (pack b BAM_CSOFT_CLIP :: u) 0 = (b, u) := by
      rcases hu with rfl | ⟨e, u2, rfl, he⟩
      · simp only [softclip_scan3, hop, hlenp]
        norm_num [BAM_CSOFT_CLIP, BAM_CSEQ_MATCH, BAM_CDEL, BAM_CHARD_CLIP]
      · simp only [softclip_scan3, hop, hlenp, he]
        norm_num [BAM_CSOFT_CLIP, BAM_CSEQ_MATCH, BAM_CDEL, BAM_CHARD_CLIP]
    rw [h3]
    simp [hb0]

theorem scan5_of_shape (l : List ℕ) (off : ℤ) (h1 : sct_shape l) :
    (if 0 < (softclip_scan5 l 0 off).1 then
       pack (softclip_scan5 l 0 off).1 BAM_CSOFT_CLIP ::
         (softclip_scan5 l 0 off).2.2
     else (softclip_scan5 l 0 off).2.2) = l ∧
    (softclip_scan5 l 0 off).2.1 = off + (head_soft_len l : ℤ) := by
  rcases h1 with rfl | ⟨e, t0, rfl, he⟩ | ⟨a, t0, rfl, ha0, halt, ht⟩
  · refine ⟨by simp [softclip_scan5], by simp [softclip_scan5, head_soft_len]⟩
  · have h5 : softclip_scan5 (e :: t0) 0 off = (0, off, e :: t0) := by
      simp [softclip_scan5, he]
    have hne : cigarOp e ≠ BAM_CSOFT_CLIP := by
      rw [he]
      simp [BAM_CSEQ_MATCH, BAM_CSOFT_CLIP]
    refine ⟨by rw [h5]; simp, ?_⟩
    rw [h5]
    simp [head_soft_len, hne]
  · have hop : cigarOp (pack a BAM_CSOFT_CLIP) = BAM_CSOFT_CLIP :=
      cigarOp_pack (by norm_num [BAM_CSOFT_CLIP]) (by simp only [BAM_CSOFT_CLIP]; omega)
    have hlenp : cigarLen (pack a BAM_CSOFT_CLIP) = a :=
      cigarLen_pack (by norm_num [BAM_CSOFT_CLIP]) (by simp only [BAM_CSOFT_CLIP]; omega)
    have h5 : softclip_scan5 (pack a BAM_CSOFT_CLIP :: t0) 0 off =
        (a, off + (a : ℤ), t0) := by
      rcases ht with rfl | ⟨e, u2, rfl, he⟩
      · simp only [softclip_scan5, hop, hlenp]
        norm_num [BAM_CSOFT_CLIP, BAM_CSEQ_MATCH, BAM_CDEL, BAM_CHARD_CLIP, BAM_CINS]
      · simp only [softclip_scan5, hop, hlenp, he]
        norm_num [BAM_CSOFT_CLIP, BAM_CSEQ_MATCH, BAM_CDEL, BAM_CHARD_CLIP, BAM_CINS]
    refine ⟨by rw [h5]; simp [ha0], ?_⟩
    rw [h5]
    simp [head_soft_len, hop, hlenp]

theorem sct_fixed (l : List ℕ) (off : ℤ)
    (h1 : sct_shape l) (h2 : sct_shape l.reverse) :
    asw_softclip_trace l off = (l, off + (head_soft_len l : ℤ)) := by
  have hA := scan3_of_shape l.reverse h2
  have hB := scan5_of_shape l off h1
  simp only [asw_softclip_trace]
  rw [hA, List.reverse_reverse, hB.1, hB.2]

theorem sct_shape_reverse_append (K : List ℕ) (e : ℕ) (pad : List ℕ)
    (he : cigarOp e = BAM_CSEQ_MATCH)
    (hpad : pad = [] ∨ ∃ b, pad = [pack b BAM_CSOFT_CLIP] ∧ 0 < b ∧ b < 2 ^ 28) :
    sct_shape (K ++ e :: pad).reverse := by
  rcases hpad with rfl | ⟨b, rfl, hb0, hblt⟩
  · refine Or.inr (Or.inl ⟨e, K.reverse, ?_, he⟩)
    simp
  · refine Or.inr (Or.inr ⟨b, e :: K.reverse, ?_, hb0, hblt,
      Or.inr ⟨e, K.reverse, rfl, he⟩⟩)
    simp

theorem scan5_output_shape (r2 : List ℕ) (off : ℤ)
    (htot : totalLen r2 < 2 ^ 28)
    (hsh : r2 = [] ∨ (∃ b, r2 = [pack b BAM_CSOFT_CLIP] ∧ 0 < b ∧ b < 2 ^ 28) ∨
      (∃ X e pad, r2 = X ++ e :: pad ∧ cigarOp e = BAM_CSEQ_MATCH ∧
        (pad = [] ∨ ∃ b, pad = [pack b BAM_CSOFT_CLIP] ∧ 0 < b ∧ b < 2 ^ 28))) :
    sct_shape (if 0 < (softclip_scan5 r2 0 off).1 then
        pack (softclip_scan5 r2 0 off).1 BAM_CSOFT_CLIP ::
          (softclip_scan5 r2 0 off).2.2
      else (softclip_scan5 r2 0 off).2.2) ∧
    sct_shape (if 0 < (softclip_scan5 r2 0 off).1 then
        pack (softclip_scan5 r2 0 off).1 BAM_CSOFT_CLIP ::
          (softclip_scan5 r2 0 off).2.2
      else (softclip_scan5 r2 0 off).2.2).reverse := by
  rcases hsh with rfl | ⟨b, rfl, hb0, hblt⟩ | ⟨X, e, pad, rfl, he, hpad⟩
  · have h5 : softclip_scan5 ([] : List ℕ) 0 off = (0, off, []) := rfl
    rw [h5]
    norm_num
    all_goals exact Or.inl rfl
  · have hsct : sct_shape [pack b BAM_CSOFT_CLIP] :=
      Or.inr (Or.inr ⟨b, [], rfl, hb0, hblt, Or.inl rfl⟩)
    rw [(scan5_of_shape [pack b BAM_CSOFT_CLIP] off hsct).1]
    exact ⟨hsct, hsct⟩
  · have hbe : notSeqEq e = false := (notSeqEq_false_iff e).mpr he
    have hD : ∃ D, (softclip_scan5 (X ++ e :: pad) 0 off).2.2 = D ++ e :: pad := by
      rw [scan5_snd_eq_dropWhile, List.dropWhile_append]
      by_cases hDE : (X.dropWhile notSeqEq).isEmpty = true
      · refine ⟨[], ?_⟩
        rw [if_pos hDE]
        simp [List.dropWhile_cons, hbe]
      · refine ⟨X.dropWhile notSeqEq, ?_⟩
        rw [if_neg hDE]
    obtain ⟨D, hD⟩ := hD
    have hne : (softclip_scan5 (X ++ e :: pad) 0 off).2.2 ≠ [] := by
      rw [hD]
      simp
    rcases softclip_scan5_snd_shape (X ++ e :: pad) 0 off with h0 | ⟨e1, t1, hh, he1⟩
    · exact absurd h0 hne
    have h1lt : (softclip_scan5 (X ++ e :: pad) 0 off).1 < 2 ^ 28 := by
      have := softclip_scan5_fst_le (X ++ e :: pad) 0 off
      omega
    constructor
    · by_cases hh1 : 0 < (softclip_scan5 (X ++ e :: pad) 0 off).1
      · rw [if_pos hh1]
        exact Or.inr (Or.inr ⟨_, _, rfl, hh1, h1lt, Or.inr ⟨e1, t1, hh, he1⟩⟩)
      · rw [if_neg hh1]
        exact Or.inr (Or.inl ⟨e1, t1, hh, he1⟩)
    · by_cases hh1 : 0 < (softclip_scan5 (X ++ e :: pad) 0 off).1
      · rw [if_pos hh1, hD]
        exact sct_shape_reverse_append (_ :: D) e pad he hpad
      · rw [if_neg hh1, hD]
        exact sct_shape_reverse_append D e pad he hpad

theorem sct_output (cig : List ℕ) (off : ℤ) (hsz : totalLen cig < 2 ^ 28) :
    sct_shape (asw_softclip_trace cig off).1 ∧
    sct_shape (asw_softclip_trace cig off).1.reverse := by
  have hb1 := scan3_fst_add_totalLen_snd_le cig.reverse 0
  rw [totalLen_reverse] at hb1
  have ht1lt : (softclip_scan3 cig.reverse 0).1 < 2 ^ 28 := by omega
  have hop : cigarOp (pack (softclip_scan3 cig.reverse 0).1 BAM_CSOFT_CLIP) =
      BAM_CSOFT_CLIP :=
    cigarOp_pack (by norm_num [BAM_CSOFT_CLIP])
      (by simp only [BAM_CSOFT_CLIP]; omega)
  have hlenp : cigarLen (pack (softclip_scan3 cig.reverse 0).1 BAM_CSOFT_CLIP) =
      (softclip_scan3 cig.reverse 0).1 :=
    cigarLen_pack (by norm_num [BAM_CSOFT_CLIP])
      (by simp only [BAM_CSOFT_CLIP]; omega)
  simp only [asw_softclip_trace]
  refine scan5_output_shape _ off ?_ ?_
  · rw [totalLen_reverse]
    by_cases h01 : 0 < (softclip_scan3 cig.reverse 0).1
    · rw [if_pos h01, totalLen_cons, hlenp]
      omega
    · rw [if_neg h01]
      omega
  · rcases softclip_scan3_snd_shape cig.reverse 0 with h0 | ⟨e, t0, hh, he⟩
    · by_cases h01 : 0 < (softclip_scan3 cig.reverse 0).1
      · rw [if_pos h01, h0]
        exact Or.inr (Or.inl ⟨_, rfl, h01, ht1lt⟩)
      · rw [if_neg h01, h0]
        exact Or.inl rfl
    · by_cases h01 : 0 < (softclip_scan3 cig.reverse 0).1
      · rw [if_pos h01, hh]
        refine Or.inr (Or.inr ⟨t0.reverse, e,
          [pack (softclip_scan3 cig.reverse 0).1 BAM_CSOFT_CLIP], ?_, he,
          Or.inr ⟨_, rfl, h01, ht1lt⟩⟩)
        simp
      · rw [if_neg h01, hh]
        refine Or.inr (Or.inr ⟨t0.reverse, e, [], ?_, he, Or.inl rfl⟩)
        simp

/-- **C6.** Corrected form of the softclip_trace boundary/idempotence claim.
After one invocation of `asw_softclip_trace` (on a CIGAR whose total run
length is below 2^28), the resulting CIGAR is empty or begins with `=` or a
soft clip, and likewise ends with `=` or a soft clip (its reverse has the
same shape); a second invocation returns the same CIGAR contents but
increases the offset by the length of the leading soft clip (so it is a
no-op on the offset exactly when the CIGAR does not start with `S`). The
original claim that the second invocation leaves the offset unchanged is
refuted by `C6_counterexample`. -/
theorem C6_softclip_second_pass (cig : List ℕ) (off : ℤ)
    (hsz : totalLen cig < 2 ^ 28) :
    sct_shape (asw_softclip_trace cig off).1 ∧
    sct_shape (asw_softclip_trace cig off).1.reverse ∧
    asw_softclip_trace (asw_softclip_trace cig off).1
        (asw_softclip_trace cig off).2 =
      ((asw_softclip_trace cig off).1,
       (asw_softclip_trace cig off).2 +
         (head_soft_len (asw_softclip_trace cig off).1 : ℤ)) := by
  obtain ⟨hA, hB⟩ := sct_output cig off hsz
  exact ⟨hA, hB, sct_fixed _ _ hA hB⟩

/-- Witness for **C6**: the hypothesis and conclusion instantiated at the
two-cell CIGAR `1X 3=` with offset 0. -/
theorem C6_softclip_second_pass_witness :
    sct_shape (asw_softclip_trace [pack 1 BAM_CSEQ_MISMATCH,
        pack 3 BAM_CSEQ_MATCH] 0).1 ∧
    sct_shape (asw_softclip_trace [pack 1 BAM_CSEQ_MISMATCH,
        pack 3 BAM_CSEQ_MATCH] 0).1.reverse ∧
    asw_softclip_trace
        (asw_softclip_trace [pack 1 BAM_CSEQ_MISMATCH,
            pack 3 BAM_CSEQ_MATCH] 0).1
        (asw_softclip_trace [pack 1 BAM_CSEQ_MISMATCH,
            pack 3 BAM_CSEQ_MATCH] 0).2 =
      ((asw_softclip_trace [pack 1 BAM_CSEQ_MISMATCH,
          pack 3 BAM_CSEQ_MATCH] 0).1,
       (asw_softclip_trace [pack 1 BAM_CSEQ_MISMATCH,
           pack 3 BAM_CSEQ_MATCH] 0).2 +
         (head_soft_len (asw_softclip_trace [pack 1 BAM_CSEQ_MISMATCH,
             pack 3 BAM_CSEQ_MATCH] 0).1 : ℤ)) :=
  C6_softclip_second_pass [pack 1 BAM_CSEQ_MISMATCH, pack 3 BAM_CSEQ_MATCH] 0
    (by decide)

/-- Counterexample to the literal **C6** claim: on the CIGAR `1X 3=` with
offset 0, the first invocation of softclip_trace yields `1S 3=` with offset
1, and the second invocation scans the leading soft clip again and bumps
the offset to 2, so it is not a no-op. -/
theorem C6_counterexample :
    (asw_softclip_trace
        (asw_softclip_trace [pack 1 BAM_CSEQ_MISMATCH, pack 3 BAM_CSEQ_MATCH]
          0).1
        (asw_softclip_trace [pack 1 BAM_CSEQ_MISMATCH, pack 3 BAM_CSEQ_MATCH]
          0).2).2 ≠
      (asw_softclip_trace [pack 1 BAM_CSEQ_MISMATCH, pack 3 BAM_CSEQ_MATCH]
        0).2 := by
  decide

/-! ### Claim C7: compact_trace vs. the spec grouping, and idempotence -/

theorem isSeqMatchOp_true_iff (c : ℕ) :
    isSeqMatchOp c = true ↔
      (cigarOp c = BAM_CSEQ_MATCH ∨ cigarOp c = BAM_CSEQ_MISMATCH) := by
  simp [isSeqMatchOp]

theorem isSeqMatchOp_false_iff (c : ℕ) :
    isSeqMatchOp c = false ↔
      ¬(cigarOp c = BAM_CSEQ_MATCH ∨ cigarOp c = BAM_CSEQ_MISMATCH) := by
  simp [isSeqMatchOp]

theorem takeWhile_append_all (p : ℕ → Bool) :
    ∀ (X Y : List ℕ), (∀ x ∈ X, p x = true) →
      (X ++ Y).takeWhile p = X ++ Y.takeWhile p := by
  intro X
  induction X with
  | nil => intro Y _; rfl
  | cons x X ih =>
    intro Y h
    have hx : p x = true := h x (List.mem_cons_self x X)
    simp only [List.cons_append, List.takeWhile_cons, hx, if_true]
    rw [ih Y (fun y hy => h y (List.mem_cons_of_mem x hy))]

theorem dropWhile_append_all (p : ℕ → Bool) :
    ∀ (X Y : List ℕ), (∀ x ∈ X, p x = true) →
      (X ++ Y).dropWhile p = Y.dropWhile p := by
  intro X
  induction X with
  | nil => intro Y _; rfl
  | cons x X ih =>
    intro Y h
    have hx : p x = true := h x (List.mem_cons_self x X)
    simp only [List.cons_append, List.dropWhile_cons, hx, if_true]
    exact ih Y (fun y hy => h y (List.mem_cons_of_mem x hy))

theorem takeWhile_all (p : ℕ → Bool) (X : List ℕ) (h : ∀ x ∈ X, p x = true) :
    X.takeWhile p = X := by
  have := takeWhile_append_all p X [] h
  simpa using this

theorem dropWhile_all (p : ℕ → Bool) (X : List ℕ) (h : ∀ x ∈ X, p x = true) :
    X.dropWhile p = [] := by
  have := dropWhile_append_all p X [] h
  simpa using this

theorem takeWhile_append_stop (p : ℕ → Bool) :
    ∀ (X Y : List ℕ), (∃ x ∈ X, p x = false) →
      (X ++ Y).takeWhile p = X.takeWhile p := by
  intro X
  induction X with
  | nil => intro Y h; obtain ⟨x, hx, _⟩ := h; cases hx
  | cons x X ih =>
    intro Y h
    by_cases hx : p x = true
    · simp only [List.cons_append, List.takeWhile_cons, hx, if_true]
      obtain ⟨y, hy, hpy⟩ := h
      rcases List.mem_cons.mp hy with rfl | hy
      · rw [hx] at hpy; cases hpy
      · rw [ih Y ⟨y, hy, hpy⟩]
    · have hx0 : p x = false := by
        cases h0 : p x with
        | false => rfl
        | true => exact absurd h0 hx
      simp [List.takeWhile_cons, hx0]

theorem dropWhile_append_stop (p : ℕ → Bool) :
    ∀ (X Y : List ℕ), (∃ x ∈ X, p x = false) →
      (X ++ Y).dropWhile p = X.dropWhile p ++ Y := by
  intro X
  induction X with
  | nil => intro Y h; obtain ⟨x, hx, _⟩ := h; cases hx
  | cons x X ih =>
    intro Y h
    by_cases hx : p x = true
    · simp only [List.cons_append, List.dropWhile_cons, hx, if_true]
      obtain ⟨y, hy, hpy⟩ := h
      rcases List.mem_cons.mp hy with rfl | hy
      · rw [hx] at hpy; cases hpy
      · exact ih Y ⟨y, hy, hpy⟩
    · have hx0 : p x = false := by
        cases h0 : p x with
        | false => rfl
        | true => exact absurd h0 hx
      simp [List.dropWhile_cons, hx0]

theorem compactSpec_allMatch :
    ∀ (T : List ℕ), T ≠ [] → (∀ c ∈ T, isSeqMatchOp c = true) →
      compactSpec T = [pack (totalLen T) BAM_CMATCH] := by
  intro T hne hall
  match T with
  | t :: T0 =>
    have ht : isSeqMatchOp t = true := hall t (List.mem_cons_self t T0)
    have hT0 : ∀ c ∈ T0, isSeqMatchOp c = true :=
      fun c hc => hall c (List.mem_cons_of_mem t hc)
    simp only [compactSpec, ht, if_true, takeWhile_all _ T0 hT0,
      dropWhile_all _ T0 hT0]
    rw [totalLen_cons]
    rfl

theorem compactSpec_tail_congr :
    ∀ (n : ℕ) (X T U : List ℕ), X.length ≤ n →
      T ≠ [] → U ≠ [] →
      (∀ c ∈ T, isSeqMatchOp c = true) → (∀ c ∈ U, isSeqMatchOp c = true) →
      totalLen T = totalLen U →
      compactSpec (X ++ T) = compactSpec (X ++ U) := by
  intro n
  induction n with
  | zero =>
    intro X T U hX hT hU haT haU hsum
    have hX0 : X = [] := List.eq_nil_of_length_eq_zero (Nat.le_zero.mp hX)
    subst hX0
    simp only [List.nil_append]
    rw [compactSpec_allMatch T hT haT, compactSpec_allMatch U hU haU, hsum]
  | succ n ih =>
    intro X T U hX hT hU haT haU hsum
    cases X with
    | nil =>
      simp only [List.nil_append]
      rw [compactSpec_allMatch T hT haT, compactSpec_allMatch U hU haU, hsum]
    | cons x X =>
      have hX1 : X.length ≤ n := by
        simp only [List.length_cons] at hX
        omega
      by_cases hx : isSeqMatchOp x = true
      · by_cases hall : ∀ y ∈ X, isSeqMatchOp y = true
        · have e1 : (X ++ T).takeWhile isSeqMatchOp = X ++ T := by
            rw [takeWhile_append_all _ X T hall, takeWhile_all _ T haT]
          have e2 : (X ++ T).dropWhile isSeqMatchOp = [] := by
            rw [dropWhile_append_all _ X T hall, dropWhile_all _ T haT]
          have e3 : (X ++ U).takeWhile isSeqMatchOp = X ++ U := by
            rw [takeWhile_append_all _ X U hall, takeWhile_all _ U haU]
          have e4 : (X ++ U).dropWhile isSeqMatchOp = [] := by
            rw [dropWhile_append_all _ X U hall, dropWhile_all _ U haU]
          simp only [List.cons_append, compactSpec, hx, if_true, e1, e2, e3, e4]
          have hs : ((X ++ T).map cigarLen).sum = ((X ++ U).map cigarLen).sum := by
            have h1 : totalLen (X ++ T) = totalLen (X ++ U) := by
              rw [totalLen_append, totalLen_append, hsum]
            exact h1
          rw [hs]
        · have hex : ∃ y ∈ X, isSeqMatchOp y = false := by
            push_neg at hall
            obtain ⟨y, hy, hpy⟩ := hall
            exact ⟨y, hy, by simpa using hpy⟩
          have e1 : (X ++ T).takeWhile isSeqMatchOp = X.takeWhile isSeqMatchOp :=
            takeWhile_append_stop _ X T hex
          have e2 : (X ++ T).dropWhile isSeqMatchOp =
              X.dropWhile isSeqMatchOp ++ T :=
            dropWhile_append_stop _ X T hex
          have e3 : (X ++ U).takeWhile isSeqMatchOp = X.takeWhile isSeqMatchOp :=
            takeWhile_append_stop _ X U hex
          have e4 : (X ++ U).dropWhile isSeqMatchOp =
              X.dropWhile isSeqMatchOp ++ U :=
            dropWhile_append_stop _ X U hex
          simp only [List.cons_append, compactSpec, hx, if_true, e1, e2, e3, e4]
          have hlen2 : (X.dropWhile isSeqMatchOp).length ≤ n :=
            le_trans (List.dropWhile_sublist isSeqMatchOp).length_le hX1
          rw [ih (X.dropWhile isSeqMatchOp) T U hlen2 hT hU haT haU hsum]
      · have hx0 : isSeqMatchOp x = false := by
          cases h0 : isSeqMatchOp x with
          | false => rfl
          | true => exact absurd h0 hx
        simp only [List.cons_append, compactSpec, hx0, Bool.false_eq_true,
          if_false]
        rw [ih X T U hX1 hT hU haT haU hsum]

theorem compactSpec_split :
    ∀ (n : ℕ) (X : List ℕ) (c : ℕ) (Y : List ℕ), X.length ≤ n →
      isSeqMatchOp c = false →
      compactSpec (X ++ c :: Y) = compactSpec X ++ c :: compactSpec Y := by
  intro n
  induction n with
  | zero =>
    intro X c Y hX hc
    have hX0 : X = [] := List.eq_nil_of_length_eq_zero (Nat.le_zero.mp hX)
    subst hX0
    simp only [List.nil_append]
    simp [compactSpec, hc]
  | succ n ih =>
    intro X c Y hX hc
    cases X with
    | nil =>
      simp only [List.nil_append]
      simp [compactSpec, hc]
    | cons x X =>
      have hX1 : X.length ≤ n := by
        simp only [List.length_cons] at hX
        omega
      by_cases hx : isSeqMatchOp x = true
      · by_cases hall : ∀ y ∈ X, isSeqMatchOp y = true
        · have e1 : (X ++ c :: Y).takeWhile isSeqMatchOp = X := by
            rw [takeWhile_append_all _ X (c :: Y) hall]
            simp [List.takeWhile_cons, hc]
          have e2 : (X ++ c :: Y).dropWhile isSeqMatchOp = c :: Y := by
            rw [dropWhile_append_all _ X (c :: Y) hall]
            simp [List.dropWhile_cons, hc]
          have e3 : X.takeWhile isSeqMatchOp = X := takeWhile_all _ X hall
          have e4 : X.dropWhile isSeqMatchOp = [] := dropWhile_all _ X hall
          simp only [List.cons_append, compactSpec, hx, if_true, e1, e2, e3, e4]
          simp [compactSpec, hc]
        · have hex : ∃ y ∈ X, isSeqMatchOp y = false := by
            push_neg at hall
            obtain ⟨y, hy, hpy⟩ := hall
            exact ⟨y, hy, by simpa using hpy⟩
          have e1 : (X ++ c :: Y).takeWhile isSeqMatchOp =
              X.takeWhile isSeqMatchOp :=
            takeWhile_append_stop _ X (c :: Y) hex
          have e2 : (X ++ c :: Y).dropWhile isSeqMatchOp =
              X.dropWhile isSeqMatchOp ++ c :: Y :=
            dropWhile_append_stop _ X (c :: Y) hex
          have hlen2 : (X.dropWhile isSeqMatchOp).length ≤ n :=
            le_trans (List.dropWhile_sublist isSeqMatchOp).length_le hX1
          simp only [List.cons_append, compactSpec, hx, if_true, e1, e2]
          rw [ih (X.dropWhile isSeqMatchOp) c Y hlen2 hc]
      · have hx0 : isSeqMatchOp x = false := by
          cases h0 : isSeqMatchOp x with
          | false => rfl
          | true => exact absurd h0 hx
        simp only [List.cons_append, compactSpec, hx0, Bool.false_eq_true,
          if_false]
        rw [ih X c Y hX1 hc]

theorem cigarOp_pack_M (z : ℕ) : cigarOp (pack z BAM_CMATCH) = BAM_CMATCH := by
  rw [cigarOp_eq_mod]
  unfold pack
  have h0 : BAM_CMATCH = 0 := rfl
  have hs : BAM_CIGAR_SHIFT = 4 := rfl
  rw [h0, Nat.or_zero, Nat.shiftLeft_eq, hs]
  omega

theorem compactGo_ops :
    ∀ (r : List ℕ) (acc : ℕ) (c : ℕ), c ∈ compactGo r acc →
      ¬(cigarOp c = BAM_CSEQ_MATCH ∨ cigarOp c = BAM_CSEQ_MISMATCH) := by
  intro r
  induction r with
  | nil =>
    intro acc c hc
    simp [compactGo] at hc
  | cons d rest ih =>
    intro acc c hc
    have hM : ∀ z, ¬(cigarOp (pack z BAM_CMATCH) = BAM_CSEQ_MATCH ∨
        cigarOp (pack z BAM_CMATCH) = BAM_CSEQ_MISMATCH) := by
      intro z h
      rw [cigarOp_pack_M] at h
      rcases h with h | h <;> simp [BAM_CMATCH, BAM_CSEQ_MATCH,
        BAM_CSEQ_MISMATCH] at h
    by_cases hd : cigarOp d = BAM_CSEQ_MATCH ∨ cigarOp d = BAM_CSEQ_MISMATCH
    · cases rest with
      | nil =>
        simp only [compactGo, if_pos hd, List.mem_singleton] at hc
        subst hc
        exact hM _
      | cons e r2 =>
        simp only [compactGo, if_pos hd] at hc
        exact ih _ c hc
    · by_cases hacc : 0 < acc
      · simp only [compactGo, if_neg hd, if_pos hacc, List.mem_cons] at hc
        rcases hc with rfl | rfl | hc
        · exact hM _
        · exact hd
        · exact ih _ c hc
      · simp only [compactGo, if_neg hd, if_neg hacc, List.mem_cons] at hc
        rcases hc with rfl | hc
        · exact hd
        · exact ih _ c hc

theorem compactGo_id :
    ∀ (l : List ℕ),
      (∀ c ∈ l, ¬(cigarOp c = BAM_CSEQ_MATCH ∨ cigarOp c = BAM_CSEQ_MISMATCH)) →
      compactGo l 0 = l := by
  intro l
  induction l with
  | nil => intro _; rfl
  | cons c rest ih =>
    intro h
    have hd : ¬(cigarOp c = BAM_CSEQ_MATCH ∨ cigarOp c = BAM_CSEQ_MISMATCH) :=
      h c (List.mem_cons_self c rest)
    simp only [compactGo, if_neg hd, Nat.lt_irrefl, if_false]
    rw [ih (fun y hy => h y (List.mem_cons_of_mem c hy))]

theorem compactGo_spec :
    ∀ (r : List ℕ) (acc : ℕ),
      (∀ c ∈ r, 1 ≤ cigarLen c) → (r = [] → acc = 0) →
      acc + totalLen r < 2 ^ 28 →
      (compactGo r acc).reverse =
        compactSpec (r.reverse ++
          (if 0 < acc then [pack acc BAM_CSEQ_MATCH] else [])) := by
  intro r
  induction r with
  | nil =>
    intro acc _ hacc0 _
    rw [hacc0 rfl]
    simp [compactGo, compactSpec]
  | cons c rest ih =>
    intro acc hlen hne hsz
    rw [totalLen_cons] at hsz
    have hc1 : 1 ≤ cigarLen c := hlen c (List.mem_cons_self c rest)
    have hop7 : cigarOp (pack acc BAM_CSEQ_MATCH) = BAM_CSEQ_MATCH :=
      cigarOp_pack (by norm_num [BAM_CSEQ_MATCH])
        (by simp only [BAM_CSEQ_MATCH]; omega)
    have hlen7 : cigarLen (pack acc BAM_CSEQ_MATCH) = acc :=
      cigarLen_pack (by norm_num [BAM_CSEQ_MATCH])
        (by simp only [BAM_CSEQ_MATCH]; omega)
    by_cases hd : cigarOp c = BAM_CSEQ_MATCH ∨ cigarOp c = BAM_CSEQ_MISMATCH
    · have hcm : isSeqMatchOp c = true := (isSeqMatchOp_true_iff c).mpr hd
      have hop7' : cigarOp (pack (acc + cigarLen c) BAM_CSEQ_MATCH) =
          BAM_CSEQ_MATCH :=
        cigarOp_pack (by norm_num [BAM_CSEQ_MATCH])
          (by simp only [BAM_CSEQ_MATCH]; omega)
      have hlen7' : cigarLen (pack (acc + cigarLen c) BAM_CSEQ_MATCH) =
          acc + cigarLen c :=
        cigarLen_pack (by norm_num [BAM_CSEQ_MATCH])
          (by simp only [BAM_CSEQ_MATCH]; omega)
      cases rest with
      | nil =>
        have hstep : compactGo [c] acc =
            [pack (acc + cigarLen c) BAM_CMATCH] := by
          simp only [compactGo, if_pos hd]
        rw [hstep]
        have hR : compactSpec ([c].reverse ++
            (if 0 < acc then [pack acc BAM_CSEQ_MATCH] else [])) =
            [pack (acc + cigarLen c) BAM_CMATCH] := by
          by_cases hacc : 0 < acc
          · rw [if_pos hacc]
            rw [compactSpec_allMatch _ (by simp) ?hall]
            case hall =>
              intro x hx
              rcases (by simpa using hx :
                  x = c ∨ x = pack acc BAM_CSEQ_MATCH) with rfl | rfl
              · exact hcm
              · exact (isSeqMatchOp_true_iff _).mpr (Or.inl hop7)
            rw [show totalLen ([c].reverse ++ [pack acc BAM_CSEQ_MATCH]) =
                cigarLen c + cigarLen (pack acc BAM_CSEQ_MATCH) by
              simp [totalLen]]
            rw [hlen7, Nat.add_comm]
          · rw [if_neg hacc]
            have hacc0 : acc = 0 := by omega
            subst hacc0
            rw [compactSpec_allMatch _ (by simp) ?hall2]
            case hall2 =>
              intro x hx
              rcases (by simpa using hx : x = c) with rfl
              exact hcm
            rw [show totalLen ([c].reverse ++ []) = cigarLen c by
              simp [totalLen]]
            rw [Nat.zero_add]
        rw [hR]
        rfl
      | cons e r2 =>
        have hstep : compactGo (c :: e :: r2) acc =
            compactGo (e :: r2) (acc + cigarLen c) := by
          simp only [compactGo, if_pos hd]
        rw [hstep]
        rw [ih (acc + cigarLen c)
          (fun y hy => hlen y (List.mem_cons_of_mem c hy))
          (fun h => absurd h (List.cons_ne_nil e r2))
          (by rw [totalLen_cons] at hsz ⊢; omega)]
        rw [if_pos (by omega : 0 < acc + cigarLen c)]
        have hXU : (c :: e :: r2).reverse ++
            (if 0 < acc then [pack acc BAM_CSEQ_MATCH] else []) =
            (e :: r2).reverse ++ ([c] ++
              (if 0 < acc then [pack acc BAM_CSEQ_MATCH] else [])) := by
          simp [List.reverse_cons, List.append_assoc]
        rw [hXU]
        refine compactSpec_tail_congr (e :: r2).reverse.length _ _ _
          (Nat.le_refl _) (by simp) (by simp) ?_ ?_ ?_
        · intro x hx
          rcases (by simpa using hx :
              x = pack (acc + cigarLen c) BAM_CSEQ_MATCH) with rfl
          exact (isSeqMatchOp_true_iff _).mpr (Or.inl hop7')
        · intro x hx
          rcases List.mem_append.mp hx with hx1 | hx1
          · rcases (by simpa using hx1 : x = c) with rfl
            exact hcm
          · by_cases hacc : 0 < acc
            · rw [if_pos hacc] at hx1
              rcases (by simpa using hx1 : x = pack acc BAM_CSEQ_MATCH)
                with rfl
              exact (isSeqMatchOp_true_iff _).mpr (Or.inl hop7)
            · rw [if_neg hacc] at hx1
              cases hx1
        · by_cases hacc : 0 < acc
          · rw [if_pos hacc]
            rw [show totalLen [pack (acc + cigarLen c) BAM_CSEQ_MATCH] =
                cigarLen (pack (acc + cigarLen c) BAM_CSEQ_MATCH) by
              simp [totalLen]]
            rw [show totalLen ([c] ++ [pack acc BAM_CSEQ_MATCH]) =
                cigarLen c + cigarLen (pack acc BAM_CSEQ_MATCH) by
              simp [totalLen]]
            rw [hlen7, hlen7', Nat.add_comm]
          · rw [if_neg hacc]
            have hacc0 : acc = 0 := by omega
            subst hacc0
            rw [show totalLen [pack (0 + cigarLen c) BAM_CSEQ_MATCH] =
                cigarLen (pack (0 + cigarLen c) BAM_CSEQ_MATCH) by
              simp [totalLen]]
            rw [show totalLen ([c] ++ []) = cigarLen c by simp [totalLen]]
            rw [hlen7']
            omega
    · have hcm : isSeqMatchOp c = false := by
        cases h0 : isSeqMatchOp c with
        | false => rfl
        | true => exact absurd ((isSeqMatchOp_true_iff c).mp h0) hd
      have hih := ih 0 (fun y hy => hlen y (List.mem_cons_of_mem c hy))
        (fun _ => rfl) (by omega)
      rw [if_neg (by omega : ¬ 0 < 0), List.append_nil] at hih
      by_cases hacc : 0 < acc
      · simp only [compactGo, if_neg hd, if_pos hacc]
        have hL : (pack acc BAM_CMATCH :: c :: compactGo rest 0).reverse =
            (compactGo rest 0).reverse ++ ([c] ++ [pack acc BAM_CMATCH]) := by
          simp
        rw [hL, hih]
        have hXU : (c :: rest).reverse ++ [pack acc BAM_CSEQ_MATCH] =
            rest.reverse ++ c :: [pack acc BAM_CSEQ_MATCH] := by
          simp
        rw [hXU]
        rw [compactSpec_split rest.reverse.length rest.reverse c
          [pack acc BAM_CSEQ_MATCH] (Nat.le_refl _) hcm]
        rw [compactSpec_allMatch [pack acc BAM_CSEQ_MATCH] (by simp)
          (fun x hx => by
            rcases (by simpa using hx : x = pack acc BAM_CSEQ_MATCH) with rfl
            exact (isSeqMatchOp_true_iff _).mpr (Or.inl hop7))]
        rw [show totalLen [pack acc BAM_CSEQ_MATCH] =
            cigarLen (pack acc BAM_CSEQ_MATCH) by simp [totalLen]]
        rw [hlen7]
        simp
      · simp only [compactGo, if_neg hd, if_neg hacc]
        have hL : (c :: compactGo rest 0).reverse =
            (compactGo rest 0).reverse ++ [c] := by
          simp
        rw [hL, hih]
        rw [show (c :: rest).reverse ++ ([] : List ℕ) =
            rest.reverse ++ c :: ([] : List ℕ) by simp]
        rw [compactSpec_split rest.reverse.length rest.reverse c []
          (Nat.le_refl _) hcm]
        simp [compactSpec]

/-- **C7.** `asw_compact_trace` computes exactly the spec-side grouping
`compactSpec` (each maximal group of adjacent `=`/`X` runs becomes one `M`
run carrying the summed length, every other op is copied verbatim), and it
is idempotent: running it a second time changes nothing. Stated for CIGARs
whose run lengths are all positive (a zero-length `=`/`X` cell that is not
at the 5-prime end would be dropped by the loop but kept as an `M` by the
spec wording) and whose total length is below 2^28 (so length accumulation
does not wrap). -/
theorem C7_compact_trace (cig : List ℕ)
    (hlen : ∀ c ∈ cig, 1 ≤ cigarLen c) (hsz : totalLen cig < 2 ^ 28) :
    asw_compact_trace cig = compactSpec cig ∧
    asw_compact_trace (asw_compact_trace cig) = asw_compact_trace cig := by
  constructor
  · unfold asw_compact_trace
    rw [compactGo_spec cig.reverse 0
      (fun c hc => hlen c (List.mem_reverse.mp hc))
      (fun _ => rfl) (by rw [totalLen_reverse]; omega)]
    rw [if_neg (by omega : ¬ 0 < 0), List.append_nil, List.reverse_reverse]
  · unfold asw_compact_trace
    rw [List.reverse_reverse]
    rw [compactGo_id _ (fun c hc => compactGo_ops cig.reverse 0 c hc)]

/-- Witness for **C7**: the hypotheses and conclusion instantiated at the
CIGAR `2= 1X 3D 2=`. -/
theorem C7_compact_trace_witness :
    asw_compact_trace [pack 2 BAM_CSEQ_MATCH, pack 1 BAM_CSEQ_MISMATCH,
        pack 3 BAM_CDEL, pack 2 BAM_CSEQ_MATCH] =
      compactSpec [pack 2 BAM_CSEQ_MATCH, pack 1 BAM_CSEQ_MISMATCH,
        pack 3 BAM_CDEL, pack 2 BAM_CSEQ_MATCH] ∧
    asw_compact_trace (asw_compact_trace [pack 2 BAM_CSEQ_MATCH,
        pack 1 BAM_CSEQ_MISMATCH, pack 3 BAM_CDEL, pack 2 BAM_CSEQ_MATCH]) =
      asw_compact_trace [pack 2 BAM_CSEQ_MATCH, pack 1 BAM_CSEQ_MISMATCH,
        pack 3 BAM_CDEL, pack 2 BAM_CSEQ_MATCH] :=
  C7_compact_trace [pack 2 BAM_CSEQ_MATCH, pack 1 BAM_CSEQ_MISMATCH,
    pack 3 BAM_CDEL, pack 2 BAM_CSEQ_MATCH] (by decide) (by decide)

end Qx














